import Mathlib

/-!
Dense matrix multiplication: sequential and row-partitioned parallel.

A shallow embedding of `src/main.cpp` (class `Matrix`, `multiplySequential`,
`multiplyParallelSimple`, `saveResultsToCSV`, `runComprehensiveAnalysis`) together
with theorems about it.

Modelling conventions

* `int` is modelled by `Int`.  On every path taken with non-negative extents and
  `1 ≤ num_threads` all intermediate integers lie between `0` and the largest of
  `m`, `n`, `p` and `num_threads`, so 32-bit wrap-around never happens and is not
  modelled.
* `double` is modelled by an arbitrary carrier `α` with a zero, an addition and
  a multiplication about which *nothing* is assumed (no associativity, no
  commutativity).  Every theorem therefore holds for IEEE doubles as well; the
  concrete examples use `Int`, on which the small integer test data of
  `src/test.cpp` is exact.
* `std::vector<std::vector<double>>` is a `List (List α)`.  The unchecked
  `operator[]` of the source has undefined behaviour outside the bounds; the
  embedding makes it the explicit error `Err.outOfRange`.
* `for (int i = lo; i < hi; ++i)` is `forLoop lo hi body`, with the loop state
  passed explicitly and errors propagated through `Except`.
* A `std::thread` running `worker(start, end)` is modelled by the pair
  `(start, end)`; the workers are run to completion one after another on the
  shared output matrix (in spawn order in `multiplyParallelSimple`).
-/

namespace MatMul

/-- Failure modes.  `dimMismatch` is the `std::invalid_argument` thrown by both
multipliers; the others make the undefined or implementation-defined behaviour
of the source explicit. -/
inductive Err where
  | dimMismatch
  | outOfRange
  | divByZero
  | badAlloc
  deriving DecidableEq, Repr

/-- The value of `for (int i = lo; i < hi; ++i) body` after at most `fuel`
iterations, starting from state `s`. -/
def forLoopAux {σ : Type} (body : Int → σ → Except Err σ) (hi : Int) :
    Nat → Int → σ → Except Err σ
  | 0, _, s => .ok s
  | fuel + 1, i, s =>
    if i < hi then
      match body i s with
      | .ok s1 => forLoopAux body hi fuel (i + 1) s1
      | .error e => .error e
    else .ok s

/-- The loop `for (int i = lo; i < hi; ++i) body`: it runs exactly
`hi - lo` iterations (none when `hi ≤ lo`). -/
def forLoop {σ : Type} (lo hi : Int) (body : Int → σ → Except Err σ) (s : σ) :
    Except Err σ :=
  forLoopAux body hi (hi - lo).toNat lo s

/-- Unchecked `std::vector::operator[]` used for reading: `v[i]`. -/
def vecAt {β : Type} (v : List β) (i : Int) : Except Err β :=
  if i < 0 then .error .outOfRange
  else
    match v[i.toNat]? with
    | some x => .ok x
    | none => .error .outOfRange

/-- Unchecked `std::vector::operator[]` used for writing: `v[i] = x`. -/
def vecSet {β : Type} (v : List β) (i : Int) (x : β) : Except Err (List β) :=
  if i < 0 then .error .outOfRange
  else if i.toNat < v.length then .ok (v.set i.toNat x)
  else .error .outOfRange

/-- The class `Matrix`: the buffer `data` and the extents `rows`, `cols`. -/
structure Matrix (α : Type) where
  data : List (List α)
  rows : Int
  cols : Int
  deriving DecidableEq, Repr

variable {α : Type}

/-- The constructor `Matrix(int r, int c)`: `data(r, std::vector<double>(c, 0))`.
A negative extent converts to a huge `size_t`, on which the vector constructor
throws; that is the error `badAlloc`. -/
def Matrix.new [Zero α] (r c : Int) : Except Err (Matrix α) :=
  if r < 0 ∨ c < 0 then .error .badAlloc
  else .ok { data := List.replicate r.toNat (List.replicate c.toNat 0), rows := r, cols := c }

/-- The accessor `getRows()`. -/
def Matrix.getRows (M : Matrix α) : Int := M.rows

/-- The accessor `getCols()`. -/
def Matrix.getCols (M : Matrix α) : Int := M.cols

/-- A read `M[i][j]`: `operator[](i)` on the matrix, then on the row. -/
def Matrix.get (M : Matrix α) (i j : Int) : Except Err α :=
  match vecAt M.data i with
  | .ok row => vecAt row j
  | .error e => .error e

/-- A write `M[i][j] = x` through the mutable `operator[]`. -/
def Matrix.set (M : Matrix α) (i j : Int) (x : α) : Except Err (Matrix α) :=
  match vecAt M.data i with
  | .ok row =>
    match vecSet row j x with
    | .ok row1 =>
      match vecSet M.data i row1 with
      | .ok data1 => .ok { M with data := data1 }
      | .error e => .error e
    | .error e => .error e
  | .error e => .error e

/-- The innermost loop of both multipliers:
`double sum = 0; for (k = 0; k < p; ++k) sum += A[i][k] * B[k][j];`. -/
def innerSum [Zero α] [Add α] [Mul α] (A B : Matrix α) (p i j : Int) : Except Err α :=
  forLoop 0 p (fun k sum =>
    match A.get i k with
    | .ok a =>
      match B.get k j with
      | .ok b => .ok (sum + a * b)
      | .error e => .error e
    | .error e => .error e) 0

/-- The body of the row loop: `for (j = 0; j < n; ++j) { ...; result[i][j] = sum; }`. -/
def rowLoop [Zero α] [Add α] [Mul α] (A B : Matrix α) (n p i : Int) (result : Matrix α) :
    Except Err (Matrix α) :=
  forLoop 0 n (fun j result =>
    match innerSum A B p i j with
    | .ok sum => result.set i j sum
    | .error e => .error e) result

/-- The function `multiplySequential` (src/main.cpp, lines 37-59). -/
def multiplySequential [Zero α] [Add α] [Mul α] (A B : Matrix α) : Except Err (Matrix α) :=
  if A.getCols ≠ B.getRows then .error .dimMismatch
  else
    let m := A.getRows
    let n := B.getCols
    let p := A.getCols
    match (Matrix.new m n : Except Err (Matrix α)) with
    | .ok result => forLoop 0 m (fun i result => rowLoop A B n p i result) result
    | .error e => .error e

/-- The lambda `worker` of `multiplyParallelSimple` (lines 72-82), acting on the
shared output matrix `result`. -/
def worker [Zero α] [Add α] [Mul α] (A B : Matrix α) (n p : Int) (start_row end_row : Int)
    (result : Matrix α) : Except Err (Matrix α) :=
  forLoop start_row end_row (fun i result => rowLoop A B n p i result) result

/-- The division `m / num_threads` on `int`: truncating, undefined for a zero
divisor (made the error `divByZero`). -/
def intDiv (a b : Int) : Except Err Int :=
  if b = 0 then .error .divByZero else .ok (Int.tdiv a b)

/-- The arguments of worker `t` (lines 88-89): `start = t * rows_per_thread` and
`end = (t == num_threads - 1) ? m : (t + 1) * rows_per_thread`. -/
def blockOf (m num_threads rows_per_thread t : Int) : Int × Int :=
  let start := t * rows_per_thread
  let end_ := if t = num_threads - 1 then m else (t + 1) * rows_per_thread
  (start, end_)

/-- The spawning loop (lines 87-91): the `(start, end)` arguments handed to the
workers, in the order of `threads.emplace_back`. -/
def spawnLoop (m num_threads rows_per_thread : Int) : Except Err (List (Int × Int)) :=
  forLoop 0 num_threads
    (fun t threads => .ok (threads ++ [blockOf m num_threads rows_per_thread t])) []

/-- Lines 84-91: `rows_per_thread = m / num_threads`, then the spawning loop.  The
result lists the row range of every worker of `multiplyParallelSimple`. -/
def threadRanges (m num_threads : Int) : Except Err (List (Int × Int)) :=
  match intDiv m num_threads with
  | .ok rows_per_thread => spawnLoop m num_threads rows_per_thread
  | .error e => .error e

/-- Running the spawned workers to completion, one after another, on the shared
output matrix. -/
def runThreads [Zero α] [Add α] [Mul α] (A B : Matrix α) (n p : Int) :
    List (Int × Int) → Matrix α → Except Err (Matrix α)
  | [], result => .ok result
  | (start_row, end_row) :: rest, result =>
    match worker A B n p start_row end_row result with
    | .ok result1 => runThreads A B n p rest result1
    | .error e => .error e

/-- The function `multiplyParallelSimple` (src/main.cpp, lines 61-98). -/
def multiplyParallelSimple [Zero α] [Add α] [Mul α] (A B : Matrix α) (num_threads : Int) :
    Except Err (Matrix α) :=
  if A.getCols ≠ B.getRows then .error .dimMismatch
  else
    let m := A.getRows
    let n := B.getCols
    let p := A.getCols
    match (Matrix.new m n : Except Err (Matrix α)) with
    | .ok result =>
      match threadRanges m num_threads with
      | .ok threads => runThreads A B n p threads result
      | .error e => .error e
    | .error e => .error e

/-- The class invariant of `Matrix` after construction: non-negative extents,
`rows` rows in the buffer, each with `cols` cells. -/
def Matrix.WF (M : Matrix α) : Prop :=
  0 ≤ M.rows ∧ 0 ≤ M.cols ∧ M.data.length = M.rows.toNat ∧
    ∀ row ∈ M.data, row.length = M.cols.toNat

instance (M : Matrix α) : Decidable M.WF :=
  inferInstanceAs (Decidable (0 ≤ M.rows ∧ 0 ≤ M.cols ∧ M.data.length = M.rows.toNat ∧
    ∀ row ∈ M.data, row.length = M.cols.toNat))

/-- The cell `M[i][j]` as a value (zero where the access is out of range). -/
def Matrix.cell [Zero α] (M : Matrix α) (i j : Int) : α :=
  match M.get i j with
  | .ok x => x
  | .error _ => 0

/-- Following the spec's words: the running sum, started at 0 and accumulated
left to right over `k = 0..p-1`, of `A[i][k] * B[k][j]`, where `p = A.getCols()`. -/
def runningSum [Zero α] [Add α] [Mul α] (A B : Matrix α) (i j : Int) : α :=
  (List.range A.getCols.toNat).foldl
    (fun acc (k : Nat) => acc + A.cell i (k : Int) * B.cell (k : Int) j) 0

/-- A list of row ranges that is contiguous from `a` to `b`: the first starts at
`a`, each next one starts where the previous one ends, the last ends at `b`, and
no range is reversed. -/
def Chained : Int → Int → List (Int × Int) → Prop
  | a, b, [] => a = b
  | a, b, (s, e) :: rest => s = a ∧ s ≤ e ∧ Chained e b rest

/-- The values taken by the index of `for (int i = lo; i < hi; ++i)`, in order:
`lo, lo + 1, ..., hi - 1`. -/
def intRange (lo hi : Int) : List Int :=
  (List.range (hi - lo).toNat).map (fun k : Nat => lo + (k : Int))

/-- The output cells `(i, j)` with `start_row ≤ i < end_row` and `0 ≤ j < n`, row
by row. -/
def cellsOf (n start_row end_row : Int) : List (Int × Int) :=
  (intRange start_row end_row).flatMap (fun i => (intRange 0 n).map (fun j => (i, j)))

/-- The loop `rowLoop` with a ghost log: every assignment `result[i][j] = sum`
appends the index pair `(i, j)` to the log. -/
def rowLoopLog [Zero α] [Add α] [Mul α] (A B : Matrix α) (n p i : Int)
    (st : Matrix α × List (Int × Int)) : Except Err (Matrix α × List (Int × Int)) :=
  forLoop 0 n (fun j st =>
    match innerSum A B p i j with
    | .ok sum =>
      match st.1.set i j sum with
      | .ok result1 => .ok (result1, st.2 ++ [(i, j)])
      | .error e => .error e
    | .error e => .error e) st

/-- The lambda `worker` with the ghost log of the cells it assigns. -/
def workerLog [Zero α] [Add α] [Mul α] (A B : Matrix α) (n p : Int) (start_row end_row : Int)
    (st : Matrix α × List (Int × Int)) : Except Err (Matrix α × List (Int × Int)) :=
  forLoop start_row end_row (fun i st => rowLoopLog A B n p i st) st

/-- The function `runThreads` with one ghost log per worker, in spawn order. -/
def runThreadsLog [Zero α] [Add α] [Mul α] (A B : Matrix α) (n p : Int) :
    List (Int × Int) → Matrix α → Except Err (Matrix α × List (List (Int × Int)))
  | [], result => .ok (result, [])
  | (start_row, end_row) :: rest, result =>
    match workerLog A B n p start_row end_row (result, []) with
    | .ok st =>
      match runThreadsLog A B n p rest st.1 with
      | .ok st1 => .ok (st1.1, st.2 :: st1.2)
      | .error e => .error e
    | .error e => .error e

/-- The function `multiplyParallelSimple` with the ghost logs: the returned
matrix together with, for every worker, the list of cells it assigned. -/
def multiplyParallelSimpleLog [Zero α] [Add α] [Mul α] (A B : Matrix α) (num_threads : Int) :
    Except Err (Matrix α × List (List (Int × Int))) :=
  if A.getCols ≠ B.getRows then .error .dimMismatch
  else
    let m := A.getRows
    let n := B.getCols
    let p := A.getCols
    match (Matrix.new m n : Except Err (Matrix α)) with
    | .ok result =>
      match threadRanges m num_threads with
      | .ok threads => runThreadsLog A B n p threads result
      | .error e => .error e
    | .error e => .error e

/-- The test matrix `A = [1, 2; 3, 4]`. -/
def smallA : Matrix Int := { data := [[1, 2], [3, 4]], rows := 2, cols := 2 }

/-- The test matrix `B = [5, 6; 7, 8]`. -/
def smallB : Matrix Int := { data := [[5, 6], [7, 8]], rows := 2, cols := 2 }

/-- The test matrix `A = [1, 2, 3; 4, 5, 6]`. -/
def rectA : Matrix Int := { data := [[1, 2, 3], [4, 5, 6]], rows := 2, cols := 3 }

/-- The test matrix `B = [7, 8, 9, 10; 11, 12, 13, 14; 15, 16, 17, 18]`. -/
def rectB : Matrix Int :=
  { data := [[7, 8, 9, 10], [11, 12, 13, 14], [15, 16, 17, 18]], rows := 3, cols := 4 }


/-- The operand `Matrix A(2, 3)` of `testMatrixDimensions`, as constructed. -/
def dimA : Matrix Int := { data := [[0, 0, 0], [0, 0, 0]], rows := 2, cols := 3 }

/-- The operand `Matrix B(3, 4)` of `testMatrixDimensions`, as constructed. -/
def dimB : Matrix Int :=
  { data := [[0, 0, 0, 0], [0, 0, 0, 0], [0, 0, 0, 0]], rows := 3, cols := 4 }

/-- A fixed 7×7 operand with entries between 1 and 10, standing for the randomly
filled `A` of `testThreadBoundaries`. -/
def sevenA : Matrix Int :=
  { data := [[1, 6, 1, 6, 1, 6, 1],
      [4, 9, 4, 9, 4, 9, 4],
      [7, 2, 7, 2, 7, 2, 7],
      [10, 5, 10, 5, 10, 5, 10],
      [3, 8, 3, 8, 3, 8, 3],
      [6, 1, 6, 1, 6, 1, 6],
      [9, 4, 9, 4, 9, 4, 9]],
    rows := 7, cols := 7 }

/-- A fixed 7×7 operand with entries between 1 and 10, standing for the randomly
filled `B` of `testThreadBoundaries`. -/
def sevenB : Matrix Int :=
  { data := [[4, 6, 8, 10, 2, 4, 6],
      [1, 3, 5, 7, 9, 1, 3],
      [8, 10, 2, 4, 6, 8, 10],
      [5, 7, 9, 1, 3, 5, 7],
      [2, 4, 6, 8, 10, 2, 4],
      [9, 1, 3, 5, 7, 9, 1],
      [6, 8, 10, 2, 4, 6, 8]],
    rows := 7, cols := 7 }

/-- The variables the lambda `worker` captures by reference (`[&]`): the operands
`A` and `B`, both `const Matrix&`, and the shared output `result`. -/
structure Shared (α : Type) where
  A : Matrix α
  B : Matrix α
  result : Matrix α

/-- One call `worker(start_row, end_row)` run to completion, as a step on the
captured variables: the only assignment of the lambda is `result[i][j] = sum`. -/
def workerStep [Zero α] [Add α] [Mul α] (n p : Int) (start_row end_row : Int)
    (st : Shared α) : Except Err (Shared α) :=
  match worker st.A st.B n p start_row end_row st.result with
  | .ok result1 => .ok { st with result := result1 }
  | .error e => .error e

/-- The function `multiplyParallelSimple` with the completion order of its workers
made explicit: `order` lists the indices of the spawned threads in the order in
which they run to completion on the shared output.  The spawn order
`0, 1, ..., num_threads - 1` gives `multiplyParallelSimple` itself. -/
def multiplyParallelSimpleOrder [Zero α] [Add α] [Mul α] (A B : Matrix α) (num_threads : Int)
    (order : List Nat) : Except Err (Matrix α) :=
  if A.getCols ≠ B.getRows then .error .dimMismatch
  else
    let m := A.getRows
    let n := B.getCols
    let p := A.getCols
    match (Matrix.new m n : Except Err (Matrix α)) with
    | .ok result =>
      match threadRanges m num_threads with
      | .ok threads => runThreads A B n p (order.filterMap (fun t => threads[t]?)) result
      | .error e => .error e
    | .error e => .error e

/-- A 2×4 output state holding stale values, for running a worker on an output
that is not freshly constructed. -/
def staleR : Matrix Int := { data := [[9, 9, 9, 9], [9, 9, 9, 9]], rows := 2, cols := 4 }

/-! ## The benchmark driver

The driver never uses the matrices its multiplications return, only the clock
readings around them and how the calls end.  Random fill, clock, allocator and
thread library form the environment of a run; `Env` records what the environment
makes of each timed step.  The steps are addressed by their position in the run
(which iteration of the size loop, which iteration of the thread-count loop), so
one environment describes one run and every run is described by some environment.
Constant banner lines of the console output are left out. -/

/-- How a block of statements ends: normally with a value, with an exception that
travels to the enclosing handler, or with the process ended by `std::terminate`. -/
inductive Outcome (β : Type) where
  | done (v : β)
  | raised (e : Err)
  | terminated
  deriving DecidableEq, Repr

/-- How one timed call `multiplyParallelSimple(A, B, threads)` (lines 142-145) ends
in the environment of the run. -/
inductive ParOutcome (τ : Type) where
  /-- The call returned; `parTime` is the difference of the clock readings. -/
  | returned (parTime : τ)
  /-- An exception left the call before the spawning loop (the allocation of
  `result`, line 70). -/
  | threw (e : Err)
  /-- The statement `threads.emplace_back(worker, start, end)` (line 90) threw at
  loop index `t`: the thread could not be created or the vector could not grow. -/
  | spawnFailed (t : Int) (e : Err)
  deriving DecidableEq, Repr

/-- What an exception thrown by `threads.emplace_back` at loop index `t` does to
the caller (lines 84-91).  At `t = 0` the vector `threads` is still empty and the
exception leaves `multiplyParallelSimple`.  At `t ≥ 1` the vector holds started
workers that were never joined; unwinding destroys these joinable `std::thread`
objects, whose destructor calls `std::terminate`. -/
def spawnFailure {β : Type} (t : Int) (e : Err) : Outcome β :=
  if t ≤ 0 then .raised e else .terminated

/-- The environment of one run of `runComprehensiveAnalysis`, over a carrier `τ`
for `double` times and speedups. -/
structure Env (τ : Type) where
  /-- Lines 128-137 in iteration `idx` for `size`: build and fill `A` and `B`, call
  `multiplySequential` between two clock readings; gives `seqTime`, or the
  exception raised on the way.  No thread exists in these lines. -/
  seqTime : Nat → Int → Except Err τ
  /-- Lines 142-145 in iteration `idx` for `size`, at position `k` of the
  thread-count loop with `threads ≥ 1`: how the call of `multiplyParallelSimple`
  between two clock readings ends. -/
  parCall : Nat → Int → Nat → Int → ParOutcome τ
  /-- The division `seqTime / parTime` on `double`. -/
  divide : τ → τ → τ

/-- A line of console output of the driver. -/
inductive Event (τ : Type) where
  | analyzing (size : Int)
  | line (threads : Int) (parTime speedup : τ)
  | caught (e : Err)
  deriving DecidableEq, Repr

/-- The loop `for (int threads : thread_counts)` (lines 141-153) from position
`k` on: each iteration pushes one speedup and prints one line; an exception leaves
the loop and `std::terminate` ends the process, the lines printed so far stay
printed. -/
def threadLoop {τ : Type} (env : Env τ) (idx : Nat) (size : Int) (seqT : τ) :
    List Int → Nat → List τ → List (Event τ) → List (Event τ) × Outcome (List τ)
  | [], _, speedups, out => (out, .done speedups)
  | threads :: rest, k, speedups, out =>
    match env.parCall idx size k threads with
    | .threw e => (out, .raised e)
    | .spawnFailed t e => (out, spawnFailure t e)
    | .returned parT =>
      let speedup := env.divide seqT parT
      threadLoop env idx size seqT rest (k + 1) (speedups ++ [speedup])
        (out ++ [.line threads parT speedup])

/-- The body of the `try` block up to the end of the thread-count loop (lines
128-153): the local vector `speedups`, the exception that left the block, or the
end of the process, together with the console output. -/
def tryBlock {τ : Type} (env : Env τ) (thread_counts : List Int) (idx : Nat) (size : Int)
    (out : List (Event τ)) : List (Event τ) × Outcome (List τ) :=
  match env.seqTime idx size with
  | .error e => (out, .raised e)
  | .ok seqT => threadLoop env idx size seqT thread_counts 0 [] out

/-- The driver's state: the vector `all_speedups`, the console output, and whether
the process has been ended by `std::terminate`. -/
structure Analysis (τ : Type) where
  all_speedups : List (List τ)
  out : List (Event τ)
  terminated : Bool
  deriving DecidableEq, Repr

/-- The loop `for (int size : sizes)` (lines 123-160) from iteration `idx` on: on
success `all_speedups.push_back(speedups)` (line 155), on an exception the `catch`
block prints the error (line 158), and either way the loop goes on; when the
process is terminated nothing further runs. -/
def sizeLoop {τ : Type} (env : Env τ) (thread_counts : List Int) :
    List Int → Nat → Analysis τ → Analysis τ
  | [], _, st => st
  | size :: rest, idx, st =>
    match tryBlock env thread_counts idx size (st.out ++ [.analyzing size]) with
    | (out1, .done speedups) =>
      sizeLoop env thread_counts rest (idx + 1)
        { st with all_speedups := st.all_speedups ++ [speedups], out := out1 }
    | (out1, .raised e) =>
      sizeLoop env thread_counts rest (idx + 1) { st with out := out1 ++ [.caught e] }
    | (out1, .terminated) => { st with out := out1, terminated := true }

/-- The function `saveResultsToCSV` (lines 100-113): the rows written after the
header line, one per `i < sizes.size()`, each the size `sizes[i]` followed by the
values of `speedups[i]`.  Both accesses are unchecked in the source. -/
def saveResultsToCSV {τ : Type} (sizes : List Int) (speedups : List (List τ)) :
    Except Err (List (Int × List τ)) :=
  forLoop 0 sizes.length (fun i rows =>
    match vecAt sizes i with
    | .ok size =>
      match vecAt speedups i with
      | .ok row => .ok (rows ++ [(size, row)])
      | .error e => .error e
    | .error e => .error e) []

/-- The function `runComprehensiveAnalysis` (lines 115-165) for given `sizes` and
`thread_counts`: the state after the size loop and, unless the process was
terminated in the loop, the outcome of `saveResultsToCSV(sizes, all_speedups)`. -/
def runComprehensiveAnalysisWith {τ : Type} (env : Env τ) (sizes thread_counts : List Int) :
    Analysis τ × Option (Except Err (List (Int × List τ))) :=
  let st := sizeLoop env thread_counts sizes 0
    { all_speedups := [], out := [], terminated := false }
  (st, if st.terminated then none else some (saveResultsToCSV sizes st.all_speedups))

/-- The function `runComprehensiveAnalysis` with the sizes and thread counts of
lines 116-117. -/
def runComprehensiveAnalysis {τ : Type} (env : Env τ) :
    Analysis τ × Option (Except Err (List (Int × List τ))) :=
  runComprehensiveAnalysisWith env [100, 200, 300, 500, 800] [1, 2, 4, 8]

/-- The outcome of the analysis of `size` in iteration `idx`: its vector of
speedups, the exception raised, or the end of the process. -/
def analysisOf {τ : Type} (env : Env τ) (thread_counts : List Int) (idx : Nat) (size : Int) :
    Outcome (List τ) :=
  (tryBlock env thread_counts idx size []).2

/-- The value of an outcome, if it has one. -/
def doneOf {β : Type} : Outcome β → Option β
  | .done v => some v
  | _ => none

/-- The exception of an outcome, if it is one. -/
def raisedOf {β : Type} : Outcome β → Option Err
  | .raised e => some e
  | _ => none

/-- The sizes announced on the console, in order. -/
def visited {τ : Type} (out : List (Event τ)) : List Int :=
  out.filterMap (fun ev =>
    match ev with
    | .analyzing size => some size
    | _ => none)

/-- The errors reported on the console by the `catch` block, in order. -/
def caughtErrors {τ : Type} (out : List (Event τ)) : List Err :=
  out.filterMap (fun ev =>
    match ev with
    | .caught e => some e
    | _ => none)

/-- The console output of iteration `idx` of the size loop for `size`: the
announcement, the lines of the thread-count loop, and the report of the `catch`
block when the analysis raised. -/
def iterationOut {τ : Type} (env : Env τ) (thread_counts : List Int) (idx : Nat)
    (size : Int) : List (Event τ) :=
  [Event.analyzing size] ++ (tryBlock env thread_counts idx size []).1 ++
    match raisedOf (analysisOf env thread_counts idx size) with
    | some e => [Event.caught e]
    | none => []

/-- A run in which the first analysis raises (an allocation failure in the
sequential step) and every other timed step succeeds, with sequential time
`8 * size` and parallel time `8 / threads`. -/
def faultyEnv : Env Int :=
  { seqTime := fun idx size => if idx = 0 then .error .badAlloc else .ok (8 * size)
    parCall := fun _ _ _ threads => .returned (Int.tdiv 8 threads)
    divide := Int.tdiv }

/-- A run in which no timed step raises, with the times of `faultyEnv`. -/
def healthyEnv : Env Int :=
  { seqTime := fun _ size => .ok (8 * size)
    parCall := fun _ _ _ threads => .returned (Int.tdiv 8 threads)
    divide := Int.tdiv }

theorem forLoopAux_done {σ : Type} (body : Int → σ → Except Err σ) (hi : Int) (fuel : Nat)
    (i : Int) (s : σ) (h : hi ≤ i) : forLoopAux body hi fuel i s = .ok s := by
  cases fuel with
  | zero => rfl
  | succ k =>
    have : ¬ i < hi := by omega
    simp [forLoopAux, this]

theorem forLoop_empty {σ : Type} (body : Int → σ → Except Err σ) (lo hi : Int) (s : σ)
    (h : hi ≤ lo) : forLoop lo hi body s = .ok s :=
  forLoopAux_done body hi _ lo s h

theorem forLoop_step {σ : Type} (body : Int → σ → Except Err σ) (lo hi : Int) (s : σ)
    (h : lo < hi) :
    forLoop lo hi body s =
      match body lo s with
      | .ok s1 => forLoop (lo + 1) hi body s1
      | .error e => .error e := by
  unfold forLoop
  have hf : (hi - lo).toNat = (hi - (lo + 1)).toNat + 1 := by omega
  rw [hf]
  simp [forLoopAux, h]

theorem forLoop_inv {σ : Type} (P : Int → σ → Prop) (body : Int → σ → Except Err σ)
    (hi : Int) :
    ∀ (k : Nat) (lo : Int) (s : σ), (hi - lo).toNat = k → lo ≤ hi → P lo s →
      (∀ i t, lo ≤ i → i < hi → P i t → ∃ t1, body i t = .ok t1 ∧ P (i + 1) t1) →
      ∃ s1, forLoop lo hi body s = .ok s1 ∧ P hi s1 := by
  intro k
  induction k with
  | zero =>
    intro lo s hk hle h0 _
    have : lo = hi := by omega
    subst this
    exact ⟨s, forLoop_empty body lo lo s (le_refl _), h0⟩
  | succ k ih =>
    intro lo s hk hle h0 hstep
    have hlt : lo < hi := by omega
    obtain ⟨t1, hb, hP⟩ := hstep lo s (le_refl _) hlt h0
    obtain ⟨s1, hs1, hP1⟩ := ih (lo + 1) t1 (by omega) (by omega) hP
      (fun i t hi1 hi2 hPi => hstep i t (by omega) hi2 hPi)
    refine ⟨s1, ?_, hP1⟩
    rw [forLoop_step body lo hi s hlt, hb]
    exact hs1

theorem forLoop_split_ok {σ : Type} (body : Int → σ → Except Err σ) (mid hi : Int)
    (h2 : mid ≤ hi) :
    ∀ (k : Nat) (lo : Int) (s s1 : σ), (mid - lo).toNat = k → lo ≤ mid →
      forLoop lo mid body s = .ok s1 → forLoop lo hi body s = forLoop mid hi body s1 := by
  intro k
  induction k with
  | zero =>
    intro lo s s1 hk hle h
    have : lo = mid := by omega
    subst this
    rw [forLoop_empty body lo lo s (le_refl _)] at h
    cases h
    rfl
  | succ k ih =>
    intro lo s s1 hk hle h
    have hlt : lo < mid := by omega
    rw [forLoop_step body lo mid s hlt] at h
    rw [forLoop_step body lo hi s (by omega)]
    cases hb : body lo s with
    | error e =>
      rw [hb] at h
      cases h
    | ok t1 =>
      rw [hb] at h
      exact ih (lo + 1) t1 s1 (by omega) (by omega) h

theorem forLoop_split_error {σ : Type} (body : Int → σ → Except Err σ) (mid hi : Int)
    (h2 : mid ≤ hi) (e : Err) :
    ∀ (k : Nat) (lo : Int) (s : σ), (mid - lo).toNat = k → lo ≤ mid →
      forLoop lo mid body s = .error e → forLoop lo hi body s = .error e := by
  intro k
  induction k with
  | zero =>
    intro lo s hk hle h
    have : lo = mid := by omega
    subst this
    rw [forLoop_empty body lo lo s (le_refl _)] at h
    cases h
  | succ k ih =>
    intro lo s hk hle h
    have hlt : lo < mid := by omega
    rw [forLoop_step body lo mid s hlt] at h
    rw [forLoop_step body lo hi s (by omega)]
    cases hb : body lo s with
    | error e1 =>
      rw [hb] at h
      exact h
    | ok t1 =>
      rw [hb] at h
      exact ih (lo + 1) t1 (by omega) (by omega) h

theorem forLoop_error {σ : Type} (body : Int → σ → Except Err σ) (hi : Int) (e : Err) :
    ∀ (k : Nat) (lo : Int) (s : σ), (hi - lo).toNat = k →
      forLoop lo hi body s = .error e → ∃ i t, body i t = .error e := by
  intro k
  induction k with
  | zero =>
    intro lo s hk h
    rw [forLoop_empty body lo hi s (by omega)] at h
    cases h
  | succ k ih =>
    intro lo s hk h
    rw [forLoop_step body lo hi s (by omega)] at h
    cases hb : body lo s with
    | error e1 =>
      rw [hb] at h
      simp only at h
      exact ⟨lo, s, by rw [hb]; exact h⟩
    | ok t1 =>
      rw [hb] at h
      exact ih (lo + 1) t1 (by omega) h


/-! ## Vectors and matrices -/

theorem vecAt_eq_ok {β : Type} (v : List β) (i : Int) (x : β) :
    vecAt v i = .ok x ↔ 0 ≤ i ∧ v[i.toNat]? = some x := by
  unfold vecAt
  by_cases h : i < 0
  · simp [h]
  · rw [if_neg h]
    cases hv : v[i.toNat]? with
    | none => simp
    | some y =>
      simp
      intro _
      omega

theorem vecAt_set_ne {β : Type} (v : List β) (k : Nat) (x : β) (i : Int)
    (h : i ≠ (k : Int)) : vecAt (v.set k x) i = vecAt v i := by
  unfold vecAt
  by_cases h0 : i < 0
  · simp [h0]
  · have : k ≠ i.toNat := by omega
    rw [if_neg h0, if_neg h0, List.getElem?_set_ne this]

theorem vecAt_set_eq {β : Type} (v : List β) (k : Nat) (x : β) (hk : k < v.length) :
    vecAt (v.set k x) (k : Int) = .ok x := by
  rw [vecAt_eq_ok]
  refine ⟨by omega, ?_⟩
  simp [List.getElem?_set, hk]

theorem Matrix.WF.row {M : Matrix α} (h : M.WF) (i : Int) (hi0 : 0 ≤ i) (hi : i < M.rows) :
    ∃ row, M.data[i.toNat]? = some row ∧ row.length = M.cols.toNat := by
  obtain ⟨_, _, hlen, hrows⟩ := h
  have hlt : i.toNat < M.data.length := by omega
  exact ⟨M.data[i.toNat], List.getElem?_eq_getElem hlt, hrows _ (List.getElem_mem hlt)⟩

theorem Matrix.get_ok_of_WF {M : Matrix α} (h : M.WF) (i j : Int) (hi0 : 0 ≤ i)
    (hi : i < M.rows) (hj0 : 0 ≤ j) (hj : j < M.cols) : ∃ x, M.get i j = .ok x := by
  obtain ⟨row, hrow, hlen⟩ := h.row i hi0 hi
  have hlt : j.toNat < row.length := by omega
  refine ⟨row[j.toNat], ?_⟩
  unfold Matrix.get
  rw [(vecAt_eq_ok _ _ _).2 ⟨hi0, hrow⟩]
  exact (vecAt_eq_ok _ _ _).2 ⟨hj0, List.getElem?_eq_getElem hlt⟩

theorem Matrix.get_eq_cell [Zero α] {M : Matrix α} (h : M.WF) (i j : Int) (hi0 : 0 ≤ i)
    (hi : i < M.rows) (hj0 : 0 ≤ j) (hj : j < M.cols) : M.get i j = .ok (M.cell i j) := by
  obtain ⟨x, hx⟩ := Matrix.get_ok_of_WF h i j hi0 hi hj0 hj
  unfold Matrix.cell
  rw [hx]

theorem Matrix.set_spec (R : Matrix α) (i j : Int) (x : α) (hR : R.WF) (hi0 : 0 ≤ i)
    (hi : i < R.rows) (hj0 : 0 ≤ j) (hj : j < R.cols) :
    ∃ R1, R.set i j x = .ok R1 ∧ R1.WF ∧ R1.rows = R.rows ∧ R1.cols = R.cols ∧
      (∀ a b, R1.get a b = if a = i ∧ b = j then .ok x else R.get a b) ∧
      (∀ a, a ≠ i → vecAt R1.data a = vecAt R.data a) := by
  obtain ⟨row, hrow, hlen⟩ := hR.row i hi0 hi
  have hjlt : j.toNat < row.length := by omega
  have hilt : i.toNat < R.data.length := by
    have := hR.2.2.1
    omega
  have hset : R.set i j x
      = .ok { R with data := R.data.set i.toNat (row.set j.toNat x) } := by
    unfold Matrix.set
    rw [(vecAt_eq_ok _ _ _).2 ⟨hi0, hrow⟩]
    simp only [vecSet]
    rw [if_neg (by omega), if_pos hjlt]
    simp only
    rw [if_neg (by omega), if_pos hilt]
  have hiN : ((i.toNat : Nat) : Int) = i := by omega
  have hjN : ((j.toNat : Nat) : Int) = j := by omega
  refine ⟨_, hset, ?_, rfl, rfl, ?_, ?_⟩
  · refine ⟨hR.1, hR.2.1, ?_, ?_⟩
    · simp only [List.length_set]
      exact hR.2.2.1
    · intro r hr
      rcases List.mem_or_eq_of_mem_set hr with h | h
      · exact hR.2.2.2 r h
      · rw [h, List.length_set]
        exact hlen
  · intro a b
    by_cases ha : a = i
    · subst ha
      have h1 : vecAt (R.data.set a.toNat (row.set j.toNat x)) a = .ok (row.set j.toNat x) := by
        have := vecAt_set_eq R.data a.toNat (row.set j.toNat x) hilt
        rwa [hiN] at this
      have h2 : vecAt R.data a = .ok row := (vecAt_eq_ok _ _ _).2 ⟨hi0, hrow⟩
      by_cases hb : b = j
      · subst hb
        simp only [Matrix.get, h1, and_self, if_true]
        have := vecAt_set_eq row b.toNat x hjlt
        rwa [hjN] at this
      · simp only [Matrix.get, h1, h2, hb, and_false, if_false]
        exact vecAt_set_ne row j.toNat x b (by omega)
    · have h1 := vecAt_set_ne R.data i.toNat (row.set j.toNat x) a (by omega)
      simp only [Matrix.get, h1, ha, false_and, if_false]
  · intro a ha
    exact vecAt_set_ne R.data i.toNat (row.set j.toNat x) a (by omega)


theorem Matrix.new_spec [Zero α] (r c : Int) (hr : 0 ≤ r) (hc : 0 ≤ c) :
    ∃ M : Matrix α, Matrix.new r c = .ok M ∧ M.WF ∧ M.rows = r ∧ M.cols = c ∧
      M.data = List.replicate r.toNat (List.replicate c.toNat 0) := by
  refine ⟨{ data := List.replicate r.toNat (List.replicate c.toNat 0), rows := r, cols := c },
    ?_, ?_, rfl, rfl, rfl⟩
  · unfold Matrix.new
    rw [if_neg (by omega)]
  · refine ⟨hr, hc, by simp, ?_⟩
    intro row hrow
    rw [List.eq_of_mem_replicate hrow]
    simp

/-! ## The multiplication loops -/

theorem innerSum_spec [Zero α] [Add α] [Mul α] (A B : Matrix α) (hA : A.WF) (hB : B.WF)
    (hdim : A.cols = B.rows) (i j : Int) (hi0 : 0 ≤ i) (hi : i < A.rows) (hj0 : 0 ≤ j)
    (hj : j < B.cols) : innerSum A B A.cols i j = .ok (runningSum A B i j) := by
  have key := forLoop_inv
    (fun (k : Int) (acc : α) =>
      acc = (List.range k.toNat).foldl
        (fun acc (k : Nat) => acc + A.cell i (k : Int) * B.cell (k : Int) j) 0)
    (fun k sum =>
      match A.get i k with
      | .ok a =>
        match B.get k j with
        | .ok b => .ok (sum + a * b)
        | .error e => .error e
      | .error e => .error e)
    A.cols (A.cols - 0).toNat 0 0 rfl hA.2.1 (by simp) (by
      intro k acc hk0 hk hacc
      have h1 := Matrix.get_eq_cell hA i k hi0 hi hk0 hk
      have h2 := Matrix.get_eq_cell hB k j hk0 (by omega) hj0 hj
      refine ⟨acc + A.cell i k * B.cell k j, ?_, ?_⟩
      · simp only [h1, h2]
      · have hk1 : (k + 1).toNat = k.toNat + 1 := by omega
        have hkN : ((k.toNat : Nat) : Int) = k := by omega
        show acc + A.cell i k * B.cell k j = _
        rw [hk1, List.range_succ, List.foldl_append, ← hacc]
        simp only [List.foldl_cons, List.foldl_nil, hkN])
  obtain ⟨s1, hs1, hP⟩ := key
  unfold innerSum
  rw [hs1, hP]
  rfl

theorem rowLoop_spec [Zero α] [Add α] [Mul α] (A B : Matrix α) (hA : A.WF) (hB : B.WF)
    (hdim : A.cols = B.rows) (R : Matrix α) (hR : R.WF) (hrows : R.rows = A.rows)
    (hcols : R.cols = B.cols) (i : Int) (hi0 : 0 ≤ i) (hi : i < A.rows) :
    ∃ R1, rowLoop A B B.cols A.cols i R = .ok R1 ∧ R1.WF ∧ R1.rows = R.rows ∧
      R1.cols = R.cols ∧
      (∀ a b, R1.get a b
        = if a = i ∧ 0 ≤ b ∧ b < B.cols then .ok (runningSum A B i b) else R.get a b) ∧
      (∀ a, a ≠ i → vecAt R1.data a = vecAt R.data a) := by
  have key := forLoop_inv
    (fun (j : Int) (R1 : Matrix α) => R1.WF ∧ R1.rows = R.rows ∧ R1.cols = R.cols ∧
      (∀ a b, R1.get a b
        = if a = i ∧ 0 ≤ b ∧ b < j then .ok (runningSum A B i b) else R.get a b) ∧
      (∀ a, a ≠ i → vecAt R1.data a = vecAt R.data a))
    (fun j result =>
      match innerSum A B A.cols i j with
      | .ok sum => result.set i j sum
      | .error e => .error e)
    B.cols (B.cols - 0).toNat 0 R rfl hB.2.1
    ⟨hR, rfl, rfl, by
      intro a b
      rw [if_neg (by omega)], fun _ _ => rfl⟩
    (by
      intro j R1 hj0 hj ⟨hW, hr, hc, hget, hframe⟩
      obtain ⟨R2, hset, hW2, hr2, hc2, hget2, hframe2⟩ :=
        Matrix.set_spec R1 i j (runningSum A B i j) hW hi0 (by omega) hj0 (by omega)
      refine ⟨R2, ?_, hW2, by omega, by omega, ?_, ?_⟩
      · simp only [innerSum_spec A B hA hB hdim i j hi0 hi hj0 hj, hset]
      · intro a b
        rw [hget2, hget]
        by_cases hab : a = i ∧ b = j
        · obtain ⟨rfl, rfl⟩ := hab
          rw [if_pos ⟨rfl, rfl⟩, if_pos ⟨rfl, hj0, by omega⟩]
        · rw [if_neg hab]
          by_cases h1 : a = i ∧ 0 ≤ b ∧ b < j
          · rw [if_pos h1, if_pos ⟨h1.1, h1.2.1, by omega⟩]
          · rw [if_neg h1, if_neg]
            rintro ⟨h2, h3, h4⟩
            have : b ≠ j := fun hb => hab ⟨h2, hb⟩
            exact h1 ⟨h2, h3, by omega⟩
      · intro a ha
        rw [hframe2 a ha, hframe a ha])
  obtain ⟨R1, h1, hW, hr, hc, hget, hframe⟩ := key
  exact ⟨R1, h1, hW, hr, hc, hget, hframe⟩

theorem worker_spec [Zero α] [Add α] [Mul α] (A B : Matrix α) (hA : A.WF) (hB : B.WF)
    (hdim : A.cols = B.rows) (R : Matrix α) (hR : R.WF) (hrows : R.rows = A.rows)
    (hcols : R.cols = B.cols) (s e : Int) (hs : 0 ≤ s) (hse : s ≤ e) (he : e ≤ A.rows) :
    ∃ R1, worker A B B.cols A.cols s e R = .ok R1 ∧ R1.WF ∧ R1.rows = R.rows ∧
      R1.cols = R.cols ∧
      (∀ a b, R1.get a b
        = if (s ≤ a ∧ a < e) ∧ 0 ≤ b ∧ b < B.cols then .ok (runningSum A B a b)
          else R.get a b) ∧
      (∀ a, ¬ (s ≤ a ∧ a < e) → vecAt R1.data a = vecAt R.data a) := by
  have key := forLoop_inv
    (fun (i : Int) (R1 : Matrix α) => R1.WF ∧ R1.rows = R.rows ∧ R1.cols = R.cols ∧
      (∀ a b, R1.get a b
        = if (s ≤ a ∧ a < i) ∧ 0 ≤ b ∧ b < B.cols then .ok (runningSum A B a b)
          else R.get a b) ∧
      (∀ a, ¬ (s ≤ a ∧ a < i) → vecAt R1.data a = vecAt R.data a))
    (fun i result => rowLoop A B B.cols A.cols i result)
    e (e - s).toNat s R rfl hse
    ⟨hR, rfl, rfl, by
      intro a b
      rw [if_neg (by omega)], fun _ _ => rfl⟩
    (by
      intro i R1 hi0 hi ⟨hW, hr, hc, hget, hframe⟩
      obtain ⟨R2, hrow, hW2, hr2, hc2, hget2, hframe2⟩ :=
        rowLoop_spec A B hA hB hdim R1 hW (by omega) (by omega) i (by omega) (by omega)
      refine ⟨R2, hrow, hW2, by omega, by omega, ?_, ?_⟩
      · intro a b
        rw [hget2, hget]
        by_cases h1 : a = i ∧ 0 ≤ b ∧ b < B.cols
        · obtain ⟨rfl, h2, h3⟩ := h1
          rw [if_pos ⟨rfl, h2, h3⟩, if_pos ⟨⟨hi0, by omega⟩, h2, h3⟩]
        · rw [if_neg h1]
          by_cases h2 : (s ≤ a ∧ a < i) ∧ 0 ≤ b ∧ b < B.cols
          · rw [if_pos h2, if_pos ⟨⟨h2.1.1, by omega⟩, h2.2⟩]
          · rw [if_neg h2, if_neg]
            rintro ⟨⟨h3, h4⟩, h5⟩
            have : a ≠ i := fun ha => h1 ⟨ha, h5⟩
            exact h2 ⟨⟨h3, by omega⟩, h5⟩
      · intro a ha
        rw [hframe2 a (by omega), hframe a (by omega)])
  obtain ⟨R1, h1, hW, hr, hc, hget, hframe⟩ := key
  exact ⟨R1, h1, hW, hr, hc, hget, hframe⟩

theorem multiplySequential_eq_worker [Zero α] [Add α] [Mul α] (A B : Matrix α)
    (hdim : A.getCols = B.getRows) :
    multiplySequential A B =
      match (Matrix.new A.getRows B.getCols : Except Err (Matrix α)) with
      | .ok result => worker A B B.getCols A.getCols 0 A.getRows result
      | .error e => .error e := by
  unfold multiplySequential worker
  rw [if_neg (by simpa using hdim)]

theorem multiplySequential_spec [Zero α] [Add α] [Mul α] (A B : Matrix α) (hA : A.WF)
    (hB : B.WF) (hdim : A.getCols = B.getRows) :
    ∃ R, multiplySequential A B = .ok R ∧ R.WF ∧ R.rows = A.rows ∧ R.cols = B.cols ∧
      ∀ i j, 0 ≤ i → i < A.rows → 0 ≤ j → j < B.cols →
        R.get i j = .ok (runningSum A B i j) := by
  obtain ⟨R0, hnew, hW0, hr0, hc0, _⟩ := @Matrix.new_spec α _ A.rows B.cols hA.1 hB.2.1
  obtain ⟨R1, hw, hW1, hr1, hc1, hget, _⟩ :=
    worker_spec A B hA hB hdim R0 hW0 hr0 hc0 0 A.rows (le_refl _) hA.1 (le_refl _)
  refine ⟨R1, ?_, hW1, by omega, by omega, ?_⟩
  · rw [multiplySequential_eq_worker A B hdim]
    simp only [Matrix.getRows, Matrix.getCols, hnew, hw]
  · intro i j hi0 hi hj0 hj
    rw [hget, if_pos ⟨⟨hi0, hi⟩, hj0, hj⟩]


/-! ## Partitioning and the parallel multiplier -/

theorem spawnLoop_spec (m T q : Int) (hT : 0 ≤ T) :
    spawnLoop m T q = .ok ((List.range T.toNat).map (fun t : Nat => blockOf m T q (t : Int))) := by
  have key := forLoop_inv
    (fun (t : Int) (threads : List (Int × Int)) =>
      threads = (List.range t.toNat).map (fun t : Nat => blockOf m T q (t : Int)))
    (fun t threads => .ok (threads ++ [blockOf m T q t]))
    T (T - 0).toNat 0 [] rfl hT (by simp) (by
      intro t threads ht0 ht hthreads
      refine ⟨_, rfl, ?_⟩
      have h1 : (t + 1).toNat = t.toNat + 1 := by omega
      have h2 : ((t.toNat : Nat) : Int) = t := by omega
      show threads ++ [blockOf m T q t] = _
      rw [h1, List.range_succ, List.map_append, ← hthreads]
      simp only [List.map_cons, List.map_nil, h2])
  obtain ⟨s1, hs1, hP⟩ := key
  unfold spawnLoop
  rw [hs1, hP]

theorem threadRanges_spec (m T : Int) (hm : 0 ≤ m) (hT : 1 ≤ T) :
    threadRanges m T
      = .ok ((List.range T.toNat).map (fun t : Nat => blockOf m T (m / T) (t : Int))) := by
  unfold threadRanges intDiv
  rw [if_neg (by omega), Int.tdiv_eq_ediv hm (by omega)]
  exact spawnLoop_spec m T (m / T) (by omega)

theorem threadRanges_getElem (m T : Int) (t : Int) (ht0 : 0 ≤ t)
    (ht : t < T) :
    ((List.range T.toNat).map (fun t : Nat => blockOf m T (m / T) (t : Int)))[t.toNat]?
      = some (blockOf m T (m / T) t) := by
  have h1 : t.toNat < T.toNat := by omega
  have h2 : ((t.toNat : Nat) : Int) = t := by omega
  rw [List.getElem?_map, List.getElem?_range h1]
  simp only [Option.map_some', h2]

theorem Chained.le : ∀ (L : List (Int × Int)) (a b : Int), Chained a b L → a ≤ b
  | [], a, b, h => by
    have : a = b := h
    omega
  | (s, e) :: rest, a, b, h => by
    obtain ⟨h1, h2, h3⟩ := h
    have := Chained.le rest e b h3
    omega

theorem Chained.snoc : ∀ (L : List (Int × Int)) (a b e : Int), Chained a b L → b ≤ e →
    Chained a e (L ++ [(b, e)])
  | [], a, b, e, h, hbe => by
    have : a = b := h
    subst this
    exact ⟨rfl, hbe, rfl⟩
  | (s, e1) :: rest, a, b, e, h, hbe => by
    obtain ⟨h1, h2, h3⟩ := h
    exact ⟨h1, h2, Chained.snoc rest e1 b e h3 hbe⟩

theorem blocks_chained_upto (m T q : Int) (hq : 0 ≤ q) :
    ∀ k : Nat, (k : Int) ≤ T - 1 →
      Chained 0 ((k : Int) * q) ((List.range k).map (fun t : Nat => blockOf m T q (t : Int)))
  | 0, _ => by
    show (0 : Int) = ((0 : Nat) : Int) * q
    simp
  | k + 1, hk => by
    have ih := blocks_chained_upto m T q hq k (by omega)
    rw [List.range_succ, List.map_append]
    have hb : blockOf m T q (k : Int) = ((k : Int) * q, ((k + 1 : Nat) : Int) * q) := by
      unfold blockOf
      rw [if_neg (by omega)]
      simp
    simp only [List.map_cons, List.map_nil, hb]
    refine Chained.snoc _ _ _ _ ih ?_
    have : ((k + 1 : Nat) : Int) * q = (k : Int) * q + q := by
      push_cast
      ring
    omega

theorem blocks_chained (m T : Int) (hm : 0 ≤ m) (hT : 1 ≤ T) :
    Chained 0 m ((List.range T.toNat).map (fun t : Nat => blockOf m T (m / T) (t : Int))) := by
  have hq : 0 ≤ m / T := Int.ediv_nonneg hm (by omega)
  have hle : m / T * T ≤ m := Int.ediv_mul_le m (by omega)
  obtain ⟨k, hk⟩ : ∃ k : Nat, T.toNat = k + 1 := ⟨T.toNat - 1, by omega⟩
  have hkT : (k : Int) = T - 1 := by omega
  have ih := blocks_chained_upto m T (m / T) hq k (by omega)
  rw [hk, List.range_succ, List.map_append]
  have hb : blockOf m T (m / T) (k : Int) = ((k : Int) * (m / T), m) := by
    unfold blockOf
    rw [if_pos hkT]
  simp only [List.map_cons, List.map_nil, hb]
  refine Chained.snoc _ _ _ _ ih ?_
  have : m / T * T = (k : Int) * (m / T) + m / T := by
    rw [hkT]
    ring
  omega

theorem runThreads_chained [Zero α] [Add α] [Mul α] (A B : Matrix α) (n p : Int) :
    ∀ (L : List (Int × Int)) (a b : Int) (R : Matrix α), Chained a b L →
      runThreads A B n p L R = worker A B n p a b R
  | [], a, b, R, h => by
    have : a = b := h
    subst this
    unfold runThreads worker
    rw [forLoop_empty _ a a R (le_refl _)]
  | (s, e) :: rest, a, b, R, h => by
    obtain ⟨h1, h2, h3⟩ := h
    subst h1
    have h4 := Chained.le rest e b h3
    unfold runThreads
    cases hw : worker A B n p s e R with
    | error err =>
      have := forLoop_split_error _ e b h4 err (e - s).toNat s R rfl h2 hw
      exact this.symm
    | ok R1 =>
      have := forLoop_split_ok _ e b h4 (e - s).toNat s R R1 rfl h2 hw
      exact (runThreads_chained A B n p rest e b R1 h3).trans this.symm

theorem multiplyParallelSimple_eq_sequential [Zero α] [Add α] [Mul α] (A B : Matrix α)
    (T : Int) (hm : 0 ≤ A.getRows) (hT : 1 ≤ T) :
    multiplyParallelSimple A B T = multiplySequential A B := by
  by_cases hdim : A.getCols = B.getRows
  · rw [multiplySequential_eq_worker A B hdim]
    unfold multiplyParallelSimple
    rw [if_neg (by simpa using hdim)]
    simp only [threadRanges_spec A.getRows T hm hT]
    cases hnew : (Matrix.new A.getRows B.getCols : Except Err (Matrix α)) with
    | error e => rfl
    | ok R0 =>
      exact runThreads_chained A B B.getCols A.getCols _ 0 A.getRows R0
        (blocks_chained A.getRows T hm hT)
  · unfold multiplyParallelSimple multiplySequential
    rw [if_pos hdim, if_pos hdim]


/-! ## The dimension-mismatch error has a single source -/

theorem vecAt_ne_dimMismatch {β : Type} (v : List β) (i : Int) :
    vecAt v i ≠ .error .dimMismatch := by
  unfold vecAt
  split
  · simp
  · split <;> simp

theorem vecSet_ne_dimMismatch {β : Type} (v : List β) (i : Int) (x : β) :
    vecSet v i x ≠ .error .dimMismatch := by
  unfold vecSet
  split
  · simp
  · split <;> simp

theorem Matrix.get_ne_dimMismatch (M : Matrix α) (i j : Int) :
    M.get i j ≠ .error .dimMismatch := by
  unfold Matrix.get
  cases h : vecAt M.data i with
  | ok row => exact vecAt_ne_dimMismatch row j
  | error e =>
    intro h1
    injection h1 with h2
    exact vecAt_ne_dimMismatch M.data i (h.trans (by rw [h2]))

theorem Matrix.set_ne_dimMismatch (M : Matrix α) (i j : Int) (x : α) :
    M.set i j x ≠ .error .dimMismatch := by
  intro h1
  unfold Matrix.set at h1
  cases h : vecAt M.data i with
  | error e =>
    simp only [h] at h1
    injection h1 with h2
    exact vecAt_ne_dimMismatch M.data i (h.trans (by rw [h2]))
  | ok row =>
    cases h3 : vecSet row j x with
    | error e =>
      simp only [h, h3] at h1
      injection h1 with h2
      exact vecSet_ne_dimMismatch row j x (h3.trans (by rw [h2]))
    | ok row1 =>
      cases h4 : vecSet M.data i row1 with
      | error e =>
        simp only [h, h3, h4] at h1
        injection h1 with h2
        exact vecSet_ne_dimMismatch M.data i row1 (h4.trans (by rw [h2]))
      | ok data1 =>
        simp only [h, h3, h4] at h1
        cases h1

theorem innerSum_ne_dimMismatch [Zero α] [Add α] [Mul α] (A B : Matrix α) (p i j : Int) :
    innerSum A B p i j ≠ .error .dimMismatch := by
  intro h
  obtain ⟨k, acc, hb⟩ := forLoop_error _ p .dimMismatch (p - 0).toNat 0 0 rfl h
  cases ha : A.get i k with
  | error e =>
    rw [ha] at hb
    injection hb with h2
    exact Matrix.get_ne_dimMismatch A i k (ha.trans (by rw [h2]))
  | ok a =>
    cases hb1 : B.get k j with
    | error e =>
      rw [ha, hb1] at hb
      injection hb with h2
      exact Matrix.get_ne_dimMismatch B k j (hb1.trans (by rw [h2]))
    | ok b =>
      rw [ha, hb1] at hb
      cases hb

theorem rowLoop_ne_dimMismatch [Zero α] [Add α] [Mul α] (A B : Matrix α) (n p i : Int)
    (R : Matrix α) : rowLoop A B n p i R ≠ .error .dimMismatch := by
  intro h
  obtain ⟨j, R1, hb⟩ := forLoop_error _ n .dimMismatch (n - 0).toNat 0 R rfl h
  cases hs : innerSum A B p i j with
  | error e =>
    rw [hs] at hb
    injection hb with h2
    exact innerSum_ne_dimMismatch A B p i j (hs.trans (by rw [h2]))
  | ok sum =>
    rw [hs] at hb
    exact Matrix.set_ne_dimMismatch R1 i j sum hb

theorem worker_ne_dimMismatch [Zero α] [Add α] [Mul α] (A B : Matrix α) (n p s e : Int)
    (R : Matrix α) : worker A B n p s e R ≠ .error .dimMismatch := by
  intro h
  obtain ⟨i, R1, hb⟩ := forLoop_error _ e .dimMismatch (e - s).toNat s R rfl h
  exact rowLoop_ne_dimMismatch A B n p i R1 hb

theorem runThreads_ne_dimMismatch [Zero α] [Add α] [Mul α] (A B : Matrix α) (n p : Int) :
    ∀ (L : List (Int × Int)) (R : Matrix α), runThreads A B n p L R ≠ .error .dimMismatch
  | [], R => by simp [runThreads]
  | (s, e) :: rest, R => by
    unfold runThreads
    cases hw : worker A B n p s e R with
    | error err =>
      intro h1
      injection h1 with h2
      exact worker_ne_dimMismatch A B n p s e R (hw.trans (by rw [h2]))
    | ok R1 => exact runThreads_ne_dimMismatch A B n p rest R1

theorem Matrix.new_ne_dimMismatch [Zero α] (r c : Int) :
    (Matrix.new r c : Except Err (Matrix α)) ≠ .error .dimMismatch := by
  unfold Matrix.new
  split <;> simp

theorem threadRanges_ne_dimMismatch (m T : Int) : threadRanges m T ≠ .error .dimMismatch := by
  intro h
  unfold threadRanges intDiv at h
  by_cases hT : T = 0
  · simp only [hT, if_true] at h
    cases h
  · simp only [hT, if_false] at h
    obtain ⟨t, L, hb⟩ := forLoop_error _ T .dimMismatch (T - 0).toNat 0 [] rfl h
    cases hb


/-! ## The ghost log of assigned cells -/

theorem intRange_empty (lo hi : Int) (h : hi ≤ lo) : intRange lo hi = [] := by
  unfold intRange
  have : (hi - lo).toNat = 0 := by omega
  rw [this]
  rfl

theorem intRange_cons (lo hi : Int) (h : lo < hi) :
    intRange lo hi = lo :: intRange (lo + 1) hi := by
  unfold intRange
  have : (hi - lo).toNat = (hi - (lo + 1)).toNat + 1 := by omega
  rw [this, List.range_succ_eq_map, List.map_cons, List.map_map]
  congr 1
  · simp
  · apply List.map_congr_left
    intro k _
    simp only [Function.comp, Nat.succ_eq_add_one]
    push_cast
    ring

theorem mem_intRange (lo hi x : Int) : x ∈ intRange lo hi ↔ lo ≤ x ∧ x < hi := by
  unfold intRange
  simp only [List.mem_map, List.mem_range]
  constructor
  · rintro ⟨k, hk, rfl⟩
    omega
  · rintro ⟨h1, h2⟩
    exact ⟨(x - lo).toNat, by omega, by omega⟩

theorem intRange_nodup (lo hi : Int) : (intRange lo hi).Nodup := by
  unfold intRange
  refine List.Nodup.map ?_ (List.nodup_range _)
  intro a b h
  simp only at h
  omega

theorem intRange_append (a e b : Int) (h1 : a ≤ e) (h2 : e ≤ b) :
    intRange a e ++ intRange e b = intRange a b := by
  obtain ⟨k, hk⟩ : ∃ k : Nat, (e - a).toNat = k := ⟨_, rfl⟩
  induction k generalizing a with
  | zero =>
    have : a = e := by omega
    subst this
    rw [intRange_empty a a (le_refl _)]
    rfl
  | succ k ih =>
    rw [intRange_cons a e (by omega), intRange_cons a b (by omega), List.cons_append,
      ih (a + 1) (by omega) (by omega)]

theorem mem_cellsOf (n s e i j : Int) :
    (i, j) ∈ cellsOf n s e ↔ (s ≤ i ∧ i < e) ∧ 0 ≤ j ∧ j < n := by
  unfold cellsOf
  simp only [List.mem_flatMap, List.mem_map, mem_intRange, Prod.mk.injEq]
  constructor
  · rintro ⟨a, ha, b, hb, rfl, rfl⟩
    exact ⟨ha, hb⟩
  · rintro ⟨ha, hb⟩
    exact ⟨i, ha, j, hb, rfl, rfl⟩

theorem cellsOf_nodup (n s e : Int) : (cellsOf n s e).Nodup :=
  List.Nodup.product (intRange_nodup s e) (intRange_nodup 0 n)

theorem cellsOf_append (n a e b : Int) (h1 : a ≤ e) (h2 : e ≤ b) :
    cellsOf n a e ++ cellsOf n e b = cellsOf n a b := by
  unfold cellsOf
  rw [← List.flatMap_append, intRange_append a e b h1 h2]

theorem forLoop_log {σ β : Type} (body1 : Int → σ → Except Err σ)
    (body2 : Int → σ × List β → Except Err (σ × List β)) (f : Int → List β) (hi : Int)
    (hb : ∀ i s l, body2 i (s, l) = (body1 i s).map (fun s1 => (s1, l ++ f i))) :
    ∀ (k : Nat) (lo : Int) (s : σ) (l : List β), (hi - lo).toNat = k →
      forLoop lo hi body2 (s, l)
        = (forLoop lo hi body1 s).map (fun s1 => (s1, l ++ (intRange lo hi).flatMap f)) := by
  intro k
  induction k with
  | zero =>
    intro lo s l hk
    rw [forLoop_empty body2 lo hi _ (by omega), forLoop_empty body1 lo hi _ (by omega),
      intRange_empty lo hi (by omega)]
    simp [Except.map]
  | succ k ih =>
    intro lo s l hk
    rw [forLoop_step body2 lo hi _ (by omega), forLoop_step body1 lo hi _ (by omega),
      intRange_cons lo hi (by omega), hb]
    cases h1 : body1 lo s with
    | error e => rfl
    | ok t1 =>
      simp only [Except.map]
      rw [ih (lo + 1) t1 (l ++ f lo) (by omega)]
      simp only [List.flatMap_cons, List.append_assoc]
      rfl

theorem rowLoopLog_eq [Zero α] [Add α] [Mul α] (A B : Matrix α) (n p i : Int) (R : Matrix α)
    (l : List (Int × Int)) :
    rowLoopLog A B n p i (R, l)
      = (rowLoop A B n p i R).map (fun R1 => (R1, l ++ (intRange 0 n).map (fun j => (i, j)))) := by
  have h := forLoop_log
    (fun j result =>
      match innerSum A B p i j with
      | .ok sum => Matrix.set result i j sum
      | .error e => .error e)
    (fun j (st : Matrix α × List (Int × Int)) =>
      match innerSum A B p i j with
      | .ok sum =>
        match st.1.set i j sum with
        | .ok result1 => .ok (result1, st.2 ++ [(i, j)])
        | .error e => .error e
      | .error e => .error e)
    (fun j => [(i, j)]) n (by
      intro j R1 l1
      dsimp only
      cases h1 : innerSum A B p i j with
      | error e => rfl
      | ok sum =>
        dsimp only
        cases h2 : R1.set i j sum with
        | error e => rfl
        | ok R2 => rfl)
    (n - 0).toNat 0 R l rfl
  have hmap : ((intRange 0 n).flatMap fun j => [(i, j)])
      = (intRange 0 n).map (fun j => (i, j)) := by
    induction intRange 0 n with
    | nil => rfl
    | cons x xs ih => simp [List.flatMap_cons, ih]
  rw [hmap] at h
  exact h

theorem workerLog_eq [Zero α] [Add α] [Mul α] (A B : Matrix α) (n p s e : Int) (R : Matrix α)
    (l : List (Int × Int)) :
    workerLog A B n p s e (R, l)
      = (worker A B n p s e R).map (fun R1 => (R1, l ++ cellsOf n s e)) :=
  forLoop_log (fun i result => rowLoop A B n p i result)
    (fun i st => rowLoopLog A B n p i st)
    (fun i => (intRange 0 n).map (fun j => (i, j))) e
    (fun i R1 l1 => rowLoopLog_eq A B n p i R1 l1) (e - s).toNat s R l rfl

theorem runThreadsLog_eq [Zero α] [Add α] [Mul α] (A B : Matrix α) (n p : Int) :
    ∀ (L : List (Int × Int)) (R : Matrix α),
      runThreadsLog A B n p L R
        = (runThreads A B n p L R).map (fun R1 => (R1, L.map (fun r => cellsOf n r.1 r.2)))
  | [], R => rfl
  | (s, e) :: rest, R => by
    unfold runThreadsLog runThreads
    rw [workerLog_eq]
    cases hw : worker A B n p s e R with
    | error err => rfl
    | ok R1 =>
      simp only [Except.map]
      rw [runThreadsLog_eq A B n p rest R1]
      cases hr : runThreads A B n p rest R1 with
      | error err => rfl
      | ok R2 => simp [Except.map]

theorem multiplyParallelSimpleLog_eq [Zero α] [Add α] [Mul α] (A B : Matrix α) (T : Int)
    (ranges : List (Int × Int)) (hr : threadRanges A.getRows T = .ok ranges) :
    multiplyParallelSimpleLog A B T
      = (multiplyParallelSimple A B T).map
          (fun R1 => (R1, ranges.map (fun r => cellsOf B.getCols r.1 r.2))) := by
  unfold multiplyParallelSimpleLog multiplyParallelSimple
  by_cases hdim : A.getCols = B.getRows
  · rw [if_neg (by simpa using hdim), if_neg (by simpa using hdim)]
    simp only [hr]
    cases hnew : (Matrix.new A.getRows B.getCols : Except Err (Matrix α)) with
    | error e => rfl
    | ok R0 =>
      simp only
      rw [runThreadsLog_eq]
  · rw [if_pos hdim, if_pos hdim]
    rfl

/-! ## Consequences of contiguity -/

theorem length_intRange (lo hi : Int) : (intRange lo hi).length = (hi - lo).toNat := by
  unfold intRange
  simp

theorem Chained.bounds : ∀ (L : List (Int × Int)) (a b : Int), Chained a b L →
    ∀ r ∈ L, a ≤ r.1 ∧ r.1 ≤ r.2 ∧ r.2 ≤ b
  | [], _, _, _, r, hr => by cases hr
  | (s, e) :: rest, a, b, h, r, hr => by
    obtain ⟨h1, h2, h3⟩ := h
    have h4 := Chained.le rest e b h3
    rcases List.mem_cons.1 hr with h5 | h5
    · subst h5
      exact ⟨by omega, h2, h4⟩
    · have := Chained.bounds rest e b h3 r h5
      omega

theorem Chained.sep : ∀ (L : List (Int × Int)) (a b : Int), Chained a b L →
    ∀ (s t : Nat) (rs rt : Int × Int), s < t → L[s]? = some rs → L[t]? = some rt →
      rs.2 ≤ rt.1
  | [], _, _, _, s, t, rs, rt, _, hs, _ => by simp at hs
  | (s0, e0) :: rest, a, b, h, s, t, rs, rt, hst, hs, ht => by
    obtain ⟨h1, h2, h3⟩ := h
    cases t with
    | zero => omega
    | succ t1 =>
      have ht1 : rest[t1]? = some rt := by simpa using ht
      cases s with
      | zero =>
        have hs0 : (s0, e0) = rs := by simpa using hs
        subst hs0
        have hmem : rt ∈ rest := List.getElem?_mem ht1
        exact (Chained.bounds rest e0 b h3 rt hmem).1
      | succ s1 =>
        have hs1 : rest[s1]? = some rs := by simpa using hs
        exact Chained.sep rest e0 b h3 s1 t1 rs rt (by omega) hs1 ht1

theorem Chained.disjoint (L : List (Int × Int)) (a b : Int) (h : Chained a b L)
    (s t : Nat) (rs rt : Int × Int) (hst : s ≠ t) (hs : L[s]? = some rs)
    (ht : L[t]? = some rt) (i : Int) : ¬ ((rs.1 ≤ i ∧ i < rs.2) ∧ (rt.1 ≤ i ∧ i < rt.2)) := by
  rintro ⟨⟨h1, h2⟩, h3, h4⟩
  rcases Nat.lt_or_gt_of_ne hst with hlt | hgt
  · have := Chained.sep L a b h s t rs rt hlt hs ht
    omega
  · have := Chained.sep L a b h t s rt rs hgt ht hs
    omega

theorem Chained.cover : ∀ (L : List (Int × Int)) (a b : Int), Chained a b L →
    ∀ i : Int, a ≤ i → i < b → ∃ (t : Nat) (r : Int × Int), L[t]? = some r ∧ r.1 ≤ i ∧ i < r.2
  | [], a, b, h, i, h1, h2 => by
    have : a = b := h
    omega
  | (s, e) :: rest, a, b, h, i, h1, h2 => by
    obtain ⟨h3, h4, h5⟩ := h
    by_cases hie : i < e
    · exact ⟨0, (s, e), List.getElem?_cons_zero, by show s ≤ i; omega, hie⟩
    · obtain ⟨t, r, hr, hr1, hr2⟩ := Chained.cover rest e b h5 i (by omega) h2
      exact ⟨t + 1, r, by simpa using hr, hr1, hr2⟩

theorem Chained.flatten_cells (n : Int) : ∀ (L : List (Int × Int)) (a b : Int), Chained a b L →
    (L.map (fun r => cellsOf n r.1 r.2)).flatten = cellsOf n a b
  | [], a, b, h => by
    have : a = b := h
    subst this
    unfold cellsOf
    rw [intRange_empty a a (le_refl _)]
    rfl
  | (s, e) :: rest, a, b, h => by
    obtain ⟨h1, h2, h3⟩ := h
    subst h1
    rw [List.map_cons, List.flatten_cons, Chained.flatten_cells n rest e b h3]
    exact cellsOf_append n s e b h2 (Chained.le rest e b h3)

theorem blockOf_inner (m T q t : Int) (ht : t < T - 1) :
    blockOf m T q t = (t * q, (t + 1) * q) := by
  unfold blockOf
  rw [if_neg (by omega)]

theorem blockOf_last (m T q : Int) : blockOf m T q (T - 1) = ((T - 1) * q, m) := by
  unfold blockOf
  rw [if_pos rfl]

theorem threadRanges_ok (m T : Int) (hm : 0 ≤ m) (hT : 1 ≤ T) :
    ∃ ranges, threadRanges m T = .ok ranges ∧ ranges.length = T.toNat ∧ Chained 0 m ranges ∧
      ∀ t, 0 ≤ t → t < T → ranges[t.toNat]? = some (blockOf m T (m / T) t) :=
  ⟨_, threadRanges_spec m T hm hT, by simp, blocks_chained m T hm hT,
    fun t ht0 ht => threadRanges_getElem m T t ht0 ht⟩

theorem multiplyParallelSimple_spec [Zero α] [Add α] [Mul α] (A B : Matrix α) (hA : A.WF)
    (hB : B.WF) (hdim : A.getCols = B.getRows) (T : Int) (hT : 1 ≤ T)
    (ranges : List (Int × Int)) (hr : threadRanges A.getRows T = .ok ranges) :
    ∃ R, multiplySequential A B = .ok R ∧ multiplyParallelSimple A B T = .ok R ∧
      multiplyParallelSimpleLog A B T
        = .ok (R, ranges.map (fun r => cellsOf B.getCols r.1 r.2)) ∧
      R.WF ∧ R.rows = A.rows ∧ R.cols = B.cols ∧
      ∀ i j, 0 ≤ i → i < A.rows → 0 ≤ j → j < B.cols →
        R.get i j = .ok (runningSum A B i j) := by
  obtain ⟨R, hseq, hW, hr1, hc, hget⟩ := multiplySequential_spec A B hA hB hdim
  have hpar : multiplyParallelSimple A B T = .ok R := by
    rw [multiplyParallelSimple_eq_sequential A B T hA.1 hT, hseq]
  refine ⟨R, hseq, hpar, ?_, hW, hr1, hc, hget⟩
  rw [multiplyParallelSimpleLog_eq A B T ranges hr, hpar]
  rfl

theorem logs_disjoint (n : Int) (ranges : List (Int × Int)) (a b : Int)
    (h : Chained a b ranges) (s t : Nat) (ls lt : List (Int × Int)) (hst : s ≠ t)
    (hs : (ranges.map (fun r => cellsOf n r.1 r.2))[s]? = some ls)
    (ht : (ranges.map (fun r => cellsOf n r.1 r.2))[t]? = some lt) (c : Int × Int) :
    ¬ (c ∈ ls ∧ c ∈ lt) := by
  rw [List.getElem?_map] at hs ht
  cases hrs : ranges[s]? with
  | none => simp [hrs] at hs
  | some rs =>
    cases hrt : ranges[t]? with
    | none => simp [hrt] at ht
    | some rt =>
      simp only [hrs, hrt, Option.map_some', Option.some.injEq] at hs ht
      subst hs ht
      obtain ⟨i, j⟩ := c
      rw [mem_cellsOf, mem_cellsOf]
      rintro ⟨⟨h1, _⟩, h2, _⟩
      exact Chained.disjoint ranges a b h s t rs rt hst hrs hrt i ⟨h1, h2⟩

theorem filter_eq_length_one {β : Type} [DecidableEq β] (l : List β) (hnd : l.Nodup) (c : β)
    (h : c ∈ l) : (l.filter (fun x => decide (x = c))).length = 1 := by
  have h1 := List.count_eq_one_of_mem hnd h
  rw [List.count, List.countP_eq_length_filter] at h1
  exact h1


/-! ## Sequential multiplier -/

/-- C1: for well-formed `A` (m×p) and `B` (p×n) with `A.getCols() == B.getRows()`,
`multiplySequential` returns a matrix whose cell `(i, j)`, for every `i < m` and
`j < n`, is the running sum started at 0 and accumulated left to right over
`k = 0..p-1` of `A[i][k] * B[k][j]`, the factors being the cells actually read
from `A` and `B`.  No law of the arithmetic is used, so no reordering is hidden. -/
theorem multiplySequential_cell_is_running_sum [Zero α] [Add α] [Mul α] (A B : Matrix α)
    (hA : A.WF) (hB : B.WF) (hdim : A.getCols = B.getRows) :
    ∃ R, multiplySequential A B = .ok R ∧
      ∀ i j, 0 ≤ i → i < A.getRows → 0 ≤ j → j < B.getCols →
        R.get i j = .ok (runningSum A B i j) ∧
        ∀ k, 0 ≤ k → k < A.getCols →
          A.get i k = .ok (A.cell i k) ∧ B.get k j = .ok (B.cell k j) := by
  obtain ⟨R, hseq, _, _, _, hget⟩ := multiplySequential_spec A B hA hB hdim
  refine ⟨R, hseq, ?_⟩
  intro i j hi0 hi hj0 hj
  refine ⟨hget i j hi0 hi hj0 hj, ?_⟩
  intro k hk0 hk
  have hk1 : k < B.rows := by
    have : A.cols = B.rows := hdim
    have : k < A.cols := hk
    omega
  exact ⟨Matrix.get_eq_cell hA i k hi0 hi hk0 hk, Matrix.get_eq_cell hB k j hk0 hk1 hj0 hj⟩

/-- The two concrete products of `src/test.cpp`: the operands
`[[1,2],[3,4]]` and `[[5,6],[7,8]]` are well formed and conformable, and the code evaluates to
`[[19,22],[43,50]]` and `[[74,80,86,92],[173,188,203,218]]`. -/
theorem multiplySequential_cell_is_running_sum_witness :
    smallA.WF ∧ smallB.WF ∧ smallA.getCols = smallB.getRows ∧
    (∃ R, multiplySequential smallA smallB = .ok R ∧
      ∀ i j, 0 ≤ i → i < smallA.getRows → 0 ≤ j → j < smallB.getCols →
        R.get i j = .ok (runningSum smallA smallB i j) ∧
        ∀ k, 0 ≤ k → k < smallA.getCols →
          smallA.get i k = .ok (smallA.cell i k) ∧ smallB.get k j = .ok (smallB.cell k j)) ∧
    multiplySequential smallA smallB
      = .ok { data := [[19, 22], [43, 50]], rows := 2, cols := 2 } ∧
    multiplySequential rectA rectB
      = .ok { data := [[74, 80, 86, 92], [173, 188, 203, 218]], rows := 2, cols := 4 } ∧
    runningSum smallA smallB 1 0 = 43 :=
  ⟨by decide, by decide, rfl,
    multiplySequential_cell_is_running_sum smallA smallB (by decide) (by decide) rfl,
    rfl, rfl, rfl⟩

/-- C2: for well-formed `A`, `B` with `A.getCols() == B.getRows()` and every worker
count `T ≥ 1`, `multiplyParallelSimple(A, B, T)` with its workers run to completion
returns the very matrix `multiplySequential(A, B)` returns: same extents, same
buffer, hence every cell equal.  `T` need not divide `m` and may exceed `m`. -/
theorem multiplyParallelSimple_agrees_with_sequential [Zero α] [Add α] [Mul α]
    (A B : Matrix α) (hA : A.WF) (hB : B.WF) (hdim : A.getCols = B.getRows) (T : Int)
    (hT : 1 ≤ T) :
    ∃ R, multiplySequential A B = .ok R ∧ multiplyParallelSimple A B T = .ok R ∧
      R.getRows = A.getRows ∧ R.getCols = B.getCols := by
  obtain ⟨R, hseq, _, hr, hc, _⟩ := multiplySequential_spec A B hA hB hdim
  refine ⟨R, hseq, ?_, hr, hc⟩
  rw [multiplyParallelSimple_eq_sequential A B T hA.1 hT, hseq]

/-- The scenario of `testThreadBoundaries`: 7×7 operands and the thread counts
1, 2, 3, 4, 7, 8 all give the sequential result. -/
theorem multiplyParallelSimple_agrees_with_sequential_witness :
    sevenA.WF ∧ sevenB.WF ∧ sevenA.getCols = sevenB.getRows ∧
    (∃ R, multiplySequential sevenA sevenB = .ok R ∧
      multiplyParallelSimple sevenA sevenB 1 = .ok R ∧
      multiplyParallelSimple sevenA sevenB 2 = .ok R ∧
      multiplyParallelSimple sevenA sevenB 3 = .ok R ∧
      multiplyParallelSimple sevenA sevenB 4 = .ok R ∧
      multiplyParallelSimple sevenA sevenB 7 = .ok R ∧
      multiplyParallelSimple sevenA sevenB 8 = .ok R) ∧
    multiplyParallelSimple rectA rectB 3
      = .ok { data := [[74, 80, 86, 92], [173, 188, 203, 218]], rows := 2, cols := 4 } := by
  have hA : sevenA.WF := by decide
  have hB : sevenB.WF := by decide
  have h := fun (T : Int) (hT : 1 ≤ T) =>
    multiplyParallelSimple_agrees_with_sequential sevenA sevenB hA hB rfl T hT
  obtain ⟨R, hseq, _⟩ := h 1 (by decide)
  refine ⟨hA, hB, rfl, ⟨R, hseq, ?_, ?_, ?_, ?_, ?_, ?_⟩, rfl⟩
  · obtain ⟨R1, h1, h2, _⟩ := h 1 (by decide)
    rw [h2, ← h1, hseq]
  · obtain ⟨R1, h1, h2, _⟩ := h 2 (by decide)
    rw [h2, ← h1, hseq]
  · obtain ⟨R1, h1, h2, _⟩ := h 3 (by decide)
    rw [h2, ← h1, hseq]
  · obtain ⟨R1, h1, h2, _⟩ := h 4 (by decide)
    rw [h2, ← h1, hseq]
  · obtain ⟨R1, h1, h2, _⟩ := h 7 (by decide)
    rw [h2, ← h1, hseq]
  · obtain ⟨R1, h1, h2, _⟩ := h 8 (by decide)
    rw [h2, ← h1, hseq]

/-- C3: each multiplier fails with the dimension-mismatch error if and only if
`A.getCols() != B.getRows()`.  The statement has no side condition: on a mismatch
the error is returned whatever else is wrong with the arguments (a zero or negative
thread count, extents on which the allocation would fail), so the check precedes
the allocation of the result, the division and the spawning of workers; and no
other step of either function raises this error.  The logged variant shows that on
a mismatch there is neither a matrix nor any worker log. -/
theorem dimension_mismatch_iff [Zero α] [Add α] [Mul α] (A B : Matrix α) (T : Int) :
    (multiplySequential A B = .error .dimMismatch ↔ A.getCols ≠ B.getRows) ∧
    (multiplyParallelSimple A B T = .error .dimMismatch ↔ A.getCols ≠ B.getRows) ∧
    (multiplyParallelSimpleLog A B T = .error .dimMismatch ↔ A.getCols ≠ B.getRows) := by
  refine ⟨⟨?_, ?_⟩, ⟨?_, ?_⟩, ⟨?_, ?_⟩⟩
  · intro h hdim
    rw [multiplySequential_eq_worker A B hdim] at h
    cases hnew : (Matrix.new A.getRows B.getCols : Except Err (Matrix α)) with
    | error e =>
      rw [hnew] at h
      injection h with h2
      exact Matrix.new_ne_dimMismatch A.getRows B.getCols (hnew.trans (by rw [h2]))
    | ok R0 =>
      rw [hnew] at h
      exact worker_ne_dimMismatch A B _ _ _ _ R0 h
  · intro hdim
    unfold multiplySequential
    rw [if_pos hdim]
  · intro h hdim
    unfold multiplyParallelSimple at h
    rw [if_neg (by simpa using hdim)] at h
    cases hnew : (Matrix.new A.getRows B.getCols : Except Err (Matrix α)) with
    | error e =>
      simp only [hnew] at h
      injection h with h2
      exact Matrix.new_ne_dimMismatch A.getRows B.getCols (hnew.trans (by rw [h2]))
    | ok R0 =>
      cases hr : threadRanges A.getRows T with
      | error e =>
        simp only [hnew, hr] at h
        injection h with h2
        exact threadRanges_ne_dimMismatch A.getRows T (hr.trans (by rw [h2]))
      | ok ranges =>
        simp only [hnew, hr] at h
        exact runThreads_ne_dimMismatch A B _ _ ranges R0 h
  · intro hdim
    unfold multiplyParallelSimple
    rw [if_pos hdim]
  · intro h hdim
    unfold multiplyParallelSimpleLog at h
    rw [if_neg (by simpa using hdim)] at h
    cases hnew : (Matrix.new A.getRows B.getCols : Except Err (Matrix α)) with
    | error e =>
      simp only [hnew] at h
      injection h with h2
      exact Matrix.new_ne_dimMismatch A.getRows B.getCols (hnew.trans (by rw [h2]))
    | ok R0 =>
      cases hr : threadRanges A.getRows T with
      | error e =>
        simp only [hnew, hr] at h
        injection h with h2
        exact threadRanges_ne_dimMismatch A.getRows T (hr.trans (by rw [h2]))
      | ok ranges =>
        simp only [hnew, hr, runThreadsLog_eq] at h
        cases hrun : runThreads A B B.getCols A.getCols ranges R0 with
        | error e =>
          rw [hrun] at h
          injection h with h2
          exact runThreads_ne_dimMismatch A B _ _ ranges R0 (hrun.trans (by rw [h2]))
        | ok R1 =>
          rw [hrun] at h
          cases h
  · intro hdim
    unfold multiplyParallelSimpleLog
    rw [if_pos hdim]

/-- A 2×3 left operand against a 2×2 right operand: both multipliers raise the
dimension-mismatch error, also with the thread count 0, on which the division
would otherwise fail; on matching operands neither raises it. -/
theorem dimension_mismatch_iff_witness :
    rectA.getCols ≠ smallB.getRows ∧
    multiplySequential rectA smallB = .error .dimMismatch ∧
    multiplyParallelSimple rectA smallB 0 = .error .dimMismatch ∧
    multiplyParallelSimple rectA rectB 0 = .error .divByZero ∧
    multiplySequential rectA rectB ≠ .error .dimMismatch :=
  ⟨by decide, (dimension_mismatch_iff rectA smallB 0).1.2 (by decide),
    (dimension_mismatch_iff rectA smallB 0).2.1.2 (by decide), rfl,
    fun h => (dimension_mismatch_iff rectA rectB 0).1.1 h rfl⟩

/-- C4: for well-formed `A` (m×p) and `B` (p×n) with `A.getCols() == B.getRows()`,
the matrix returned by `multiplySequential` reports `getRows() == m` and
`getCols() == n`, and its buffer has `m` rows of exactly `n` cells each. -/
theorem multiplySequential_shape [Zero α] [Add α] [Mul α] (A B : Matrix α) (hA : A.WF)
    (hB : B.WF) (hdim : A.getCols = B.getRows) :
    ∃ R, multiplySequential A B = .ok R ∧ R.getRows = A.getRows ∧ R.getCols = B.getCols ∧
      R.data.length = A.getRows.toNat ∧ ∀ row ∈ R.data, row.length = B.getCols.toNat := by
  obtain ⟨R, hseq, hW, hr, hc, _⟩ := multiplySequential_spec A B hA hB hdim
  refine ⟨R, hseq, hr, hc, ?_, ?_⟩
  · rw [hW.2.2.1, hr]
    rfl
  · intro row hrow
    rw [hW.2.2.2 row hrow, hc]
    rfl

/-- The scenario of `testMatrixDimensions`: `Matrix A(2, 3)` times `Matrix B(3, 4)`
gives a 2×4 matrix. -/
theorem multiplySequential_shape_witness :
    Matrix.new 2 3 = .ok dimA ∧ Matrix.new 3 4 = .ok dimB ∧
    dimA.WF ∧ dimB.WF ∧ dimA.getCols = dimB.getRows ∧
    (∃ R, multiplySequential dimA dimB = .ok R ∧ R.getRows = 2 ∧ R.getCols = 4 ∧
      R.data.length = 2 ∧ ∀ row ∈ R.data, row.length = 4) ∧
    multiplySequential dimA dimB
      = .ok { data := [[0, 0, 0, 0], [0, 0, 0, 0]], rows := 2, cols := 4 } :=
  ⟨rfl, rfl, by decide, by decide, rfl,
    multiplySequential_shape dimA dimB (by decide) (by decide) rfl, rfl⟩

/-! ## Row partition -/

/-- C5: for `T ≥ 1` workers and `m ≥ 0` rows, `multiplyParallelSimple` computes
`rows_per_thread = floor(m/T)` and hands worker `t < T-1` the range
`[t*floor(m/T), (t+1)*floor(m/T))`, which holds exactly `floor(m/T)` rows, and the
last worker the range `[(T-1)*floor(m/T), m)`, that is the rows
`(T-1)*floor(m/T)` through `m-1`. -/
theorem threadRanges_blocks (m T : Int) (hm : 0 ≤ m) (hT : 1 ≤ T) :
    ∃ ranges, intDiv m T = .ok (Int.fdiv m T) ∧ threadRanges m T = .ok ranges ∧
      ranges.length = T.toNat ∧
      (∀ t, 0 ≤ t → t < T - 1 →
        ranges[t.toNat]? = some (t * Int.fdiv m T, (t + 1) * Int.fdiv m T) ∧
        (intRange (t * Int.fdiv m T) ((t + 1) * Int.fdiv m T)).length
          = (Int.fdiv m T).toNat ∧
        (t + 1) * Int.fdiv m T - t * Int.fdiv m T = Int.fdiv m T) ∧
      ranges[(T - 1).toNat]? = some ((T - 1) * Int.fdiv m T, m) ∧
      (T - 1) * Int.fdiv m T ≤ m ∧
      ∀ i, i ∈ intRange ((T - 1) * Int.fdiv m T) m ↔ (T - 1) * Int.fdiv m T ≤ i ∧ i ≤ m - 1 := by
  obtain ⟨ranges, hr, hlen, _, hget⟩ := threadRanges_ok m T hm hT
  have hf : Int.fdiv m T = m / T := Int.fdiv_eq_ediv m (by omega)
  have hq : 0 ≤ m / T := Int.ediv_nonneg hm (by omega)
  have hle : m / T * T ≤ m := Int.ediv_mul_le m (by omega)
  have hexp : m / T * T = (T - 1) * (m / T) + m / T := by ring
  rw [hf]
  refine ⟨ranges, ?_, hr, hlen, ?_, ?_, by omega, ?_⟩
  · unfold intDiv
    rw [if_neg (by omega), Int.tdiv_eq_ediv hm (by omega)]
  · intro t ht0 ht
    have hstep : (t + 1) * (m / T) = t * (m / T) + m / T := by ring
    refine ⟨?_, ?_, by omega⟩
    · rw [hget t ht0 (by omega), blockOf_inner m T (m / T) t ht]
    · rw [length_intRange, hstep]
      congr 1
      omega
  · rw [hget (T - 1) (by omega) (by omega), blockOf_last]
  · intro i
    rw [mem_intRange]
    omega

/-- Seven rows on three workers: `[0,2)`, `[2,4)` and `[4,7)`. -/
theorem threadRanges_blocks_witness :
    (0 : Int) ≤ 7 ∧ (1 : Int) ≤ 3 ∧ threadRanges 7 3 = .ok [(0, 2), (2, 4), (4, 7)] ∧
    ∃ ranges, threadRanges 7 3 = .ok ranges ∧ ranges.length = 3 ∧
      ranges[2]? = some ((3 - 1) * Int.fdiv 7 3, 7) :=
  ⟨by decide, by decide, rfl,
    (threadRanges_blocks 7 3 (by decide) (by decide)).elim
      (fun ranges h => ⟨ranges, h.2.1, h.2.2.1, h.2.2.2.2.1⟩)⟩

/-- C6: for `T ≥ 1` and `m ≥ 0` the row ranges of two distinct workers share no row
index, block boundaries included; consequently, on well-formed operands with `m`
rows, the lists of cells assigned by two distinct workers have no cell in common. -/
theorem threadRanges_pairwise_disjoint (m T : Int) (hm : 0 ≤ m) (hT : 1 ≤ T) :
    ∃ ranges, threadRanges m T = .ok ranges ∧ ranges.length = T.toNat ∧
      (∀ (s t : Nat) (rs rt : Int × Int), s ≠ t → ranges[s]? = some rs →
        ranges[t]? = some rt → ∀ i : Int, ¬ ((rs.1 ≤ i ∧ i < rs.2) ∧ (rt.1 ≤ i ∧ i < rt.2))) ∧
      ∀ (β : Type) [Zero β] [Add β] [Mul β] (A B : Matrix β), A.WF → B.WF →
        A.getRows = m → A.getCols = B.getRows →
        ∃ R logs, multiplyParallelSimple A B T = .ok R ∧
          multiplyParallelSimpleLog A B T = .ok (R, logs) ∧ logs.length = T.toNat ∧
          ∀ (s t : Nat) (ls lt : List (Int × Int)), s ≠ t → logs[s]? = some ls →
            logs[t]? = some lt → ∀ c : Int × Int, ¬ (c ∈ ls ∧ c ∈ lt) := by
  obtain ⟨ranges, hr, hlen, hch, _⟩ := threadRanges_ok m T hm hT
  refine ⟨ranges, hr, hlen, ?_, ?_⟩
  · intro s t rs rt hst hs ht i
    exact Chained.disjoint ranges 0 m hch s t rs rt hst hs ht i
  · intro β _ _ _ A B hA hB hrows hdim
    subst hrows
    obtain ⟨R, _, hpar, hlog, _⟩ := multiplyParallelSimple_spec A B hA hB hdim T hT ranges hr
    refine ⟨R, _, hpar, hlog, by simpa using hlen, ?_⟩
    intro s t ls lt hst hs ht c
    exact logs_disjoint B.getCols ranges 0 A.getRows hch s t ls lt hst hs ht c

/-- Seven rows on three workers: the three ranges `[0,2)`, `[2,4)`, `[4,7)` are
pairwise disjoint. -/
theorem threadRanges_pairwise_disjoint_witness :
    (0 : Int) ≤ 7 ∧ (1 : Int) ≤ 3 ∧ threadRanges 7 3 = .ok [(0, 2), (2, 4), (4, 7)] ∧
    ∃ ranges, threadRanges 7 3 = .ok ranges ∧
      ∀ (s t : Nat) (rs rt : Int × Int), s ≠ t → ranges[s]? = some rs →
        ranges[t]? = some rt → ∀ i : Int, ¬ ((rs.1 ≤ i ∧ i < rs.2) ∧ (rt.1 ≤ i ∧ i < rt.2)) :=
  ⟨by decide, by decide, rfl,
    (threadRanges_pairwise_disjoint 7 3 (by decide) (by decide)).elim
      (fun ranges h => ⟨ranges, h.1, h.2.2.1⟩)⟩

/-- C7: for `r ≥ 0` and `c ≥ 0` the constructor `Matrix(r, c)` succeeds, the fresh
matrix reports `getRows() == r` and `getCols() == c`, and every cell `m[i][j]` with
`i < r`, `j < c` reads as zero. -/
theorem Matrix.new_zero_filled [Zero α] (r c : Int) (hr : 0 ≤ r) (hc : 0 ≤ c) :
    ∃ M : Matrix α, Matrix.new r c = .ok M ∧ M.getRows = r ∧ M.getCols = c ∧
      ∀ i j, 0 ≤ i → i < r → 0 ≤ j → j < c → M.get i j = .ok 0 := by
  obtain ⟨M, hnew, _, hrows, hcols, hdata⟩ := @Matrix.new_spec α _ r c hr hc
  refine ⟨M, hnew, hrows, hcols, ?_⟩
  intro i j hi0 hi hj0 hj
  unfold Matrix.get
  have h1 : vecAt M.data i = .ok (List.replicate c.toNat 0) := by
    rw [vecAt_eq_ok, hdata]
    exact ⟨hi0, List.getElem?_replicate_of_lt (by omega)⟩
  rw [h1]
  exact (vecAt_eq_ok _ _ _).2 ⟨hj0, List.getElem?_replicate_of_lt (by omega)⟩

/-- The scenario of `testConstructor`: `Matrix m(3, 4)` has 3 rows, 4 columns and
only zero cells. -/
theorem Matrix.new_zero_filled_witness :
    (0 : Int) ≤ 3 ∧ (0 : Int) ≤ 4 ∧
    (∃ M : Matrix Int, Matrix.new 3 4 = .ok M ∧ M.getRows = 3 ∧ M.getCols = 4 ∧
      ∀ i j, 0 ≤ i → i < 3 → 0 ≤ j → j < 4 → M.get i j = .ok 0) ∧
    (Matrix.new 3 4 : Except Err (Matrix Int))
      = .ok { data := [[0, 0, 0, 0], [0, 0, 0, 0], [0, 0, 0, 0]], rows := 3, cols := 4 } :=
  ⟨by decide, by decide, Matrix.new_zero_filled 3 4 (by decide) (by decide), rfl⟩

/-- C8: for well-formed operands with `m` rows and a worker count `T > m ≥ 0`,
`multiplyParallelSimple` does not fail: `floor(m/T)` is 0, every worker but the
last receives the empty block `(0, 0)`, on which the worker returns the output
unchanged and assigns no cell, the last worker receives `[0, m)` and assigns every
cell of the `m` rows, and the returned matrix is the complete product, equal to the
sequential one. -/
theorem multiplyParallelSimple_more_threads_than_rows [Zero α] [Add α] [Mul α]
    (A B : Matrix α) (hA : A.WF) (hB : B.WF) (hdim : A.getCols = B.getRows) (T : Int)
    (hT : A.getRows < T) :
    Int.fdiv A.getRows T = 0 ∧ intDiv A.getRows T = .ok 0 ∧
    ∃ ranges R logs, threadRanges A.getRows T = .ok ranges ∧ ranges.length = T.toNat ∧
      (∀ t, 0 ≤ t → t < T - 1 → ranges[t.toNat]? = some (0, 0)) ∧
      ranges[(T - 1).toNat]? = some (0, A.getRows) ∧
      (∀ R0 : Matrix α, worker A B B.getCols A.getCols 0 0 R0 = .ok R0) ∧
      multiplyParallelSimple A B T = .ok R ∧
      multiplyParallelSimpleLog A B T = .ok (R, logs) ∧
      (∀ t, 0 ≤ t → t < T - 1 → logs[t.toNat]? = some []) ∧
      logs[(T - 1).toNat]? = some (cellsOf B.getCols 0 A.getRows) ∧
      multiplySequential A B = .ok R ∧ R.getRows = A.getRows ∧ R.getCols = B.getCols ∧
      ∀ i j, 0 ≤ i → i < A.getRows → 0 ≤ j → j < B.getCols →
        R.get i j = .ok (runningSum A B i j) := by
  have hm : 0 ≤ A.getRows := hA.1
  have hT1 : 1 ≤ T := by omega
  have hq : A.getRows / T = 0 := Int.ediv_eq_zero_of_lt hm hT
  have hf : Int.fdiv A.getRows T = 0 := by
    rw [Int.fdiv_eq_ediv A.getRows (by omega), hq]
  obtain ⟨ranges, hr, hlen, _, hget⟩ := threadRanges_ok A.getRows T hm hT1
  obtain ⟨R, hseq, hpar, hlog, _, hrows, hcols, hcell⟩ :=
    multiplyParallelSimple_spec A B hA hB hdim T hT1 ranges hr
  have hinner : ∀ t, 0 ≤ t → t < T - 1 → ranges[t.toNat]? = some (0, 0) := by
    intro t ht0 ht
    rw [hget t ht0 (by omega), blockOf_inner _ T _ t ht, hq]
    simp
  have hlast : ranges[(T - 1).toNat]? = some (0, A.getRows) := by
    rw [hget (T - 1) (by omega) (by omega), blockOf_last, hq]
    simp
  refine ⟨hf, ?_, ranges, R, _, hr, hlen, hinner, hlast, ?_, hpar, hlog, ?_, ?_, hseq, hrows,
    hcols, hcell⟩
  · unfold intDiv
    rw [if_neg (by omega), Int.tdiv_eq_ediv hm (by omega), hq]
  · intro R0
    exact forLoop_empty _ 0 0 R0 (le_refl _)
  · intro t ht0 ht
    rw [List.getElem?_map, hinner t ht0 ht]
    simp only [Option.map_some']
    unfold cellsOf
    rw [intRange_empty 0 0 (le_refl _)]
    rfl
  · rw [List.getElem?_map, hlast]
    rfl

/-- The scenario `T = 8 > m = 7` of `testThreadBoundaries`: seven workers
receive `(0, 0)` and the eighth `(0, 7)`. -/
theorem multiplyParallelSimple_more_threads_than_rows_witness :
    sevenA.WF ∧ sevenB.WF ∧ sevenA.getCols = sevenB.getRows ∧ sevenA.getRows < 8 ∧
    Int.fdiv sevenA.getRows 8 = 0 ∧ intDiv sevenA.getRows 8 = .ok 0 ∧
    threadRanges 7 8
      = .ok [(0, 0), (0, 0), (0, 0), (0, 0), (0, 0), (0, 0), (0, 0), (0, 7)] :=
  ⟨by decide, by decide, rfl, by decide,
    (multiplyParallelSimple_more_threads_than_rows sevenA sevenB (by decide) (by decide) rfl 8
      (by decide)).1,
    rfl, rfl⟩

/-- C9: for `T ≥ 1` and `m ≥ 0` the worker blocks are contiguous and cover the
output exactly: block 0 starts at 0, block `t` ends where block `t+1` starts, the
last block ends at `m`, every row index in `0..m-1` lies in the range of exactly one
worker, and, on well-formed operands with `m` rows, every output cell is assigned
exactly once over all workers (the assignments to it, filtered from the joined
logs, number one) and nothing outside the output is assigned. -/
theorem threadRanges_cover_exactly (m T : Int) (hm : 0 ≤ m) (hT : 1 ≤ T) :
    ∃ ranges, threadRanges m T = .ok ranges ∧ ranges.length = T.toNat ∧
      (∃ e0, ranges[0]? = some (0, e0)) ∧
      (∀ t, 0 ≤ t → t < T - 1 → ∃ a b c, ranges[t.toNat]? = some (a, b) ∧
        ranges[(t + 1).toNat]? = some (b, c)) ∧
      (∃ s, ranges[(T - 1).toNat]? = some (s, m)) ∧
      (∀ i, 0 ≤ i → i < m →
        ∃! t : Nat, ∃ r : Int × Int, ranges[t]? = some r ∧ r.1 ≤ i ∧ i < r.2) ∧
      ∀ (β : Type) [Zero β] [Add β] [Mul β] (A B : Matrix β), A.WF → B.WF →
        A.getRows = m → A.getCols = B.getRows →
        ∃ R logs, multiplyParallelSimple A B T = .ok R ∧
          multiplyParallelSimpleLog A B T = .ok (R, logs) ∧
          (∀ i j, 0 ≤ i → i < m → 0 ≤ j → j < B.getCols →
            (logs.flatten.filter (fun c => decide (c = (i, j)))).length = 1) ∧
          ∀ i j, (i, j) ∈ logs.flatten → (0 ≤ i ∧ i < m) ∧ 0 ≤ j ∧ j < B.getCols := by
  obtain ⟨ranges, hr, hlen, hch, hget⟩ := threadRanges_ok m T hm hT
  refine ⟨ranges, hr, hlen, ?_, ?_, ?_, ?_, ?_⟩
  · have h0 := hget 0 (le_refl _) (by omega)
    refine ⟨(blockOf m T (m / T) 0).2, ?_⟩
    rw [show (0 : Int).toNat = 0 from rfl] at h0
    rw [h0]
    unfold blockOf
    simp
  · intro t ht0 ht
    refine ⟨t * (m / T), (t + 1) * (m / T), (blockOf m T (m / T) (t + 1)).2, ?_, ?_⟩
    · rw [hget t ht0 (by omega), blockOf_inner m T (m / T) t ht]
    · rw [hget (t + 1) (by omega) (by omega)]
      rfl
  · refine ⟨(T - 1) * (m / T), ?_⟩
    rw [hget (T - 1) (by omega) (by omega), blockOf_last]
  · intro i hi0 hi
    obtain ⟨t, r, hrt, h1, h2⟩ := Chained.cover ranges 0 m hch i hi0 hi
    refine ⟨t, ⟨r, hrt, h1, h2⟩, ?_⟩
    rintro t1 ⟨r1, hr1, h3, h4⟩
    by_contra hne
    exact Chained.disjoint ranges 0 m hch t1 t r1 r hne hr1 hrt i ⟨⟨h3, h4⟩, h1, h2⟩
  · intro β _ _ _ A B hA hB hrows hdim
    subst hrows
    obtain ⟨R, _, hpar, hlog, _⟩ := multiplyParallelSimple_spec A B hA hB hdim T hT ranges hr
    have hflat := Chained.flatten_cells B.getCols ranges 0 A.getRows hch
    refine ⟨R, _, hpar, hlog, ?_, ?_⟩
    · intro i j hi0 hi hj0 hj
      rw [hflat]
      exact filter_eq_length_one _ (cellsOf_nodup _ _ _) (i, j)
        ((mem_cellsOf _ _ _ _ _).2 ⟨⟨hi0, hi⟩, hj0, hj⟩)
    · intro i j hmem
      rw [hflat] at hmem
      exact (mem_cellsOf _ _ _ _ _).1 hmem

/-- Seven rows on four workers: the blocks `[0,1)`, `[1,2)`, `[2,3)`, `[3,7)`
follow one another from 0 to 7. -/
theorem threadRanges_cover_exactly_witness :
    (0 : Int) ≤ 7 ∧ (1 : Int) ≤ 4 ∧ threadRanges 7 4 = .ok [(0, 1), (1, 2), (2, 3), (3, 7)] ∧
    ∃ ranges, threadRanges 7 4 = .ok ranges ∧ ranges.length = 4 ∧
      (∃ e0, ranges[0]? = some (0, e0)) ∧ ∃ s, ranges[3]? = some (s, 7) :=
  ⟨by decide, by decide, rfl,
    (threadRanges_cover_exactly 7 4 (by decide) (by decide)).elim
      (fun ranges h => ⟨ranges, h.1, h.2.1, h.2.2.1, h.2.2.2.2.1⟩)⟩

/-- C10: for `T ≥ 1` and `m ≥ 0` the block of the last worker holds exactly
`floor(m/T) + (m mod T)` rows; it exceeds the `floor(m/T)` rows of every other
worker by `m mod T`, which lies between 0 and `T-1` and is 0 exactly when `T`
divides `m`. -/
theorem last_block_rows (m T : Int) (hm : 0 ≤ m) (hT : 1 ≤ T) :
    ∃ ranges s e, threadRanges m T = .ok ranges ∧ ranges[(T - 1).toNat]? = some (s, e) ∧
      e - s = Int.fdiv m T + Int.fmod m T ∧
      (intRange s e).length = (Int.fdiv m T + Int.fmod m T).toNat ∧
      (∀ t, 0 ≤ t → t < T - 1 → ∃ s1 e1, ranges[t.toNat]? = some (s1, e1) ∧
        e1 - s1 = Int.fdiv m T ∧ (e - s) - (e1 - s1) = Int.fmod m T) ∧
      0 ≤ Int.fmod m T ∧ Int.fmod m T ≤ T - 1 ∧ (Int.fmod m T = 0 ↔ T ∣ m) := by
  obtain ⟨ranges, hr, _, _, hget⟩ := threadRanges_ok m T hm hT
  have hf : Int.fdiv m T = m / T := Int.fdiv_eq_ediv m (by omega)
  have hfm : Int.fmod m T = m % T := Int.fmod_eq_emod m (by omega)
  have hdm : T * (m / T) + m % T = m := Int.ediv_add_emod m T
  have hexp : T * (m / T) = (T - 1) * (m / T) + m / T := by ring
  have h0 : 0 ≤ m % T := Int.emod_nonneg m (by omega)
  have h1 : m % T < T := Int.emod_lt_of_pos m (by omega)
  rw [hf, hfm]
  refine ⟨ranges, (T - 1) * (m / T), m, hr, ?_, by omega, ?_, ?_, h0, by omega, ?_⟩
  · rw [hget (T - 1) (by omega) (by omega), blockOf_last]
  · rw [length_intRange]
    congr 1
    omega
  · intro t ht0 ht
    have hstep : (t + 1) * (m / T) = t * (m / T) + m / T := by ring
    refine ⟨t * (m / T), (t + 1) * (m / T), ?_, by omega, by omega⟩
    rw [hget t ht0 (by omega), blockOf_inner m T (m / T) t ht]
  · exact (Int.dvd_iff_emod_eq_zero).symm

/-- Seven rows on three workers: the last block `[4,7)` holds `2 + 1 = 3` rows. -/
theorem last_block_rows_witness :
    (0 : Int) ≤ 7 ∧ (1 : Int) ≤ 3 ∧ threadRanges 7 3 = .ok [(0, 2), (2, 4), (4, 7)] ∧
    Int.fdiv 7 3 = 2 ∧ Int.fmod 7 3 = 1 ∧
    ∃ ranges s e, threadRanges 7 3 = .ok ranges ∧ ranges[2]? = some (s, e) ∧
      e - s = Int.fdiv 7 3 + Int.fmod 7 3 :=
  ⟨by decide, by decide, rfl, by decide, by decide,
    (last_block_rows 7 3 (by decide) (by decide)).elim
      (fun ranges h => h.elim (fun s h => h.elim (fun e h => ⟨ranges, s, e, h.1, h.2.1, h.2.2.1⟩)))⟩

/-! ## Extensionality of rows and matrices -/

theorem vecAt_ext {β : Type} (v w : List β) (hlen : v.length = w.length)
    (h : ∀ j : Int, 0 ≤ j → j < (v.length : Int) → vecAt v j = vecAt w j) : v = w := by
  apply List.ext_getElem?
  intro k
  by_cases hk : k < v.length
  · have h1 : vecAt v (k : Int) = .ok v[k] :=
      (vecAt_eq_ok v k v[k]).2 ⟨by omega, by simp [hk]⟩
    have h2 := h (k : Int) (by omega) (by omega)
    rw [h1] at h2
    have h3 := ((vecAt_eq_ok w k v[k]).1 h2.symm).2
    simp only [Int.toNat_ofNat] at h3
    rw [h3, List.getElem?_eq_getElem hk]
  · rw [List.getElem?_eq_none (by omega), List.getElem?_eq_none (by omega)]

theorem Matrix.row_eq_of_get (M1 M2 : Matrix α) (h1 : M1.WF) (h2 : M2.WF)
    (hc : M1.cols = M2.cols) (i : Int) (hi0 : 0 ≤ i) (hi1 : i < M1.rows) (hi2 : i < M2.rows)
    (h : ∀ j, 0 ≤ j → j < M1.cols → M1.get i j = M2.get i j) :
    vecAt M1.data i = vecAt M2.data i := by
  obtain ⟨row1, hrow1, hlen1⟩ := h1.row i hi0 hi1
  obtain ⟨row2, hrow2, hlen2⟩ := h2.row i hi0 hi2
  have e1 : vecAt M1.data i = .ok row1 := (vecAt_eq_ok _ _ _).2 ⟨hi0, hrow1⟩
  have e2 : vecAt M2.data i = .ok row2 := (vecAt_eq_ok _ _ _).2 ⟨hi0, hrow2⟩
  have hrows : row1 = row2 := by
    apply vecAt_ext row1 row2 (by omega)
    intro j hj0 hj
    have := h j hj0 (by have := h1.2.1; omega)
    simp only [Matrix.get, e1, e2] at this
    exact this
  rw [e1, e2, hrows]

theorem Matrix.ext_get (M1 M2 : Matrix α) (h1 : M1.WF) (h2 : M2.WF) (hr : M1.rows = M2.rows)
    (hc : M1.cols = M2.cols)
    (h : ∀ i j, 0 ≤ i → i < M1.rows → 0 ≤ j → j < M1.cols → M1.get i j = M2.get i j) :
    M1 = M2 := by
  have hdata : M1.data = M2.data := by
    apply vecAt_ext M1.data M2.data (by have := h1.2.2.1; have := h2.2.2.1; omega)
    intro i hi0 hi
    have hi1 : i < M1.rows := by have := h1.2.2.1; have := h1.1; omega
    exact Matrix.row_eq_of_get M1 M2 h1 h2 hc i hi0 hi1 (by omega)
      (fun j hj0 hj => h i j hi0 hi1 hj0 hj)
  cases M1
  cases M2
  simp only [Matrix.mk.injEq]
  exact ⟨hdata, hr, hc⟩

/-! ## Workers in any order -/

theorem runThreads_spec [Zero α] [Add α] [Mul α] (A B : Matrix α) (hA : A.WF) (hB : B.WF)
    (hdim : A.cols = B.rows) :
    ∀ (L : List (Int × Int)) (R : Matrix α), R.WF → R.rows = A.rows → R.cols = B.cols →
      (∀ r ∈ L, 0 ≤ r.1 ∧ r.1 ≤ r.2 ∧ r.2 ≤ A.rows) →
      ∃ R1, runThreads A B B.cols A.cols L R = .ok R1 ∧ R1.WF ∧ R1.rows = R.rows ∧
        R1.cols = R.cols ∧
        ∀ a b, R1.get a b
          = if (∃ r ∈ L, r.1 ≤ a ∧ a < r.2) ∧ 0 ≤ b ∧ b < B.cols
            then .ok (runningSum A B a b) else R.get a b
  | [], R, hR, _, _, _ => by
    refine ⟨R, rfl, hR, rfl, rfl, ?_⟩
    intro a b
    rw [if_neg]
    rintro ⟨⟨r, hr, _⟩, _⟩
    cases hr
  | (s, e) :: rest, R, hR, hrows, hcols, hL => by
    obtain ⟨h1, h2, h3⟩ := hL (s, e) (List.mem_cons_self _ _)
    obtain ⟨R1, hw, hW1, hr1, hc1, hget1, _⟩ :=
      worker_spec A B hA hB hdim R hR hrows hcols s e h1 h2 h3
    obtain ⟨R2, hrun, hW2, hr2, hc2, hget2⟩ :=
      runThreads_spec A B hA hB hdim rest R1 hW1 (by omega) (by omega)
        (fun r hr => hL r (List.mem_cons_of_mem _ hr))
    refine ⟨R2, ?_, hW2, by omega, by omega, ?_⟩
    · unfold runThreads
      rw [hw]
      exact hrun
    · intro a b
      rw [hget2, hget1]
      by_cases hb : 0 ≤ b ∧ b < B.cols
      · by_cases hrest : ∃ r ∈ rest, r.1 ≤ a ∧ a < r.2
        · obtain ⟨r, hr, hra⟩ := hrest
          rw [if_pos ⟨⟨r, hr, hra⟩, hb⟩, if_pos ⟨⟨r, List.mem_cons_of_mem _ hr, hra⟩, hb⟩]
        · rw [if_neg (fun h => hrest h.1)]
          by_cases hse : s ≤ a ∧ a < e
          · rw [if_pos ⟨hse, hb⟩, if_pos ⟨⟨(s, e), List.mem_cons_self _ _, hse⟩, hb⟩]
          · rw [if_neg (fun h => hse h.1), if_neg]
            rintro ⟨⟨r, hr, hra⟩, _⟩
            rcases List.mem_cons.1 hr with h5 | h5
            · subst h5
              exact hse hra
            · exact hrest ⟨r, h5, hra⟩
      · rw [if_neg (fun h => hb h.2), if_neg (fun h => hb h.2), if_neg (fun h => hb h.2)]

theorem runThreads_perm [Zero α] [Add α] [Mul α] (A B : Matrix α) (hA : A.WF) (hB : B.WF)
    (hdim : A.cols = B.rows) (L1 L2 : List (Int × Int)) (hperm : L1.Perm L2)
    (hL : ∀ r ∈ L2, 0 ≤ r.1 ∧ r.1 ≤ r.2 ∧ r.2 ≤ A.rows) (R : Matrix α) (hR : R.WF)
    (hrows : R.rows = A.rows) (hcols : R.cols = B.cols) :
    runThreads A B B.cols A.cols L1 R = runThreads A B B.cols A.cols L2 R := by
  obtain ⟨R1, hrun1, hW1, hr1, hc1, hget1⟩ :=
    runThreads_spec A B hA hB hdim L1 R hR hrows hcols (fun r hr => hL r (hperm.mem_iff.1 hr))
  obtain ⟨R2, hrun2, hW2, hr2, hc2, hget2⟩ :=
    runThreads_spec A B hA hB hdim L2 R hR hrows hcols hL
  have heq : R1 = R2 := by
    apply Matrix.ext_get R1 R2 hW1 hW2 (by omega) (by omega)
    intro i j _ _ _ _
    rw [hget1, hget2]
    have hiff : (∃ r ∈ L1, r.1 ≤ i ∧ i < r.2) ↔ (∃ r ∈ L2, r.1 ≤ i ∧ i < r.2) := by
      constructor
      · rintro ⟨r, hr, h⟩
        exact ⟨r, hperm.mem_iff.1 hr, h⟩
      · rintro ⟨r, hr, h⟩
        exact ⟨r, hperm.mem_iff.2 hr, h⟩
    simp only [hiff]
  rw [hrun1, hrun2, heq]

theorem filterMap_getElem?_range {β : Type} : ∀ (l : List β),
    (List.range l.length).filterMap (fun t => l[t]?) = l
  | [] => rfl
  | a :: l => by
    rw [List.length_cons, List.range_succ_eq_map, List.filterMap_cons, List.filterMap_map]
    have hf : ((fun t => (a :: l)[t]?) ∘ Nat.succ) = fun t => l[t]? := by
      funext t
      simp
    simp only [List.getElem?_cons_zero, hf]
    congr 1
    exact filterMap_getElem?_range l

theorem multiplyParallelSimpleOrder_eq [Zero α] [Add α] [Mul α] (A B : Matrix α) (T : Int)
    (order : List Nat) (hdim : A.getCols = B.getRows) (R0 : Matrix α)
    (hnew : (Matrix.new A.getRows B.getCols : Except Err (Matrix α)) = .ok R0)
    (ranges : List (Int × Int)) (hr : threadRanges A.getRows T = .ok ranges) :
    multiplyParallelSimpleOrder A B T order
      = runThreads A B B.getCols A.getCols (order.filterMap (fun t => ranges[t]?)) R0 := by
  unfold multiplyParallelSimpleOrder
  rw [if_neg (by simpa using hdim)]
  simp only [hnew, hr]

theorem multiplyParallelSimple_eq_runThreads [Zero α] [Add α] [Mul α] (A B : Matrix α)
    (T : Int) (hdim : A.getCols = B.getRows) (R0 : Matrix α)
    (hnew : (Matrix.new A.getRows B.getCols : Except Err (Matrix α)) = .ok R0)
    (ranges : List (Int × Int)) (hr : threadRanges A.getRows T = .ok ranges) :
    multiplyParallelSimple A B T = runThreads A B B.getCols A.getCols ranges R0 := by
  unfold multiplyParallelSimple
  rw [if_neg (by simpa using hdim)]
  simp only [hnew, hr]

theorem multiplyParallelSimpleOrder_spawn [Zero α] [Add α] [Mul α] (A B : Matrix α) (T : Int)
    (hm : 0 ≤ A.getRows) (hT : 1 ≤ T) :
    multiplyParallelSimpleOrder A B T (List.range T.toNat) = multiplyParallelSimple A B T := by
  obtain ⟨ranges, hr, hlen, _, _⟩ := threadRanges_ok A.getRows T hm hT
  unfold multiplyParallelSimpleOrder multiplyParallelSimple
  simp only [hr]
  rw [← hlen, filterMap_getElem?_range ranges]

/-! ## Workers: frame, safety, completion order -/

/-- C11: for every m×n output state and every range `0 ≤ start_row ≤ end_row ≤ m`,
the worker of `multiplyParallelSimple` run on `(start_row, end_row)` succeeds, sets
each row `i` in `[start_row, end_row)` to row `i` of the sequential product, leaves
every row outside that range as it was, keeps the extents of the output, and leaves
the operands `A` and `B` as they were. -/
theorem worker_frame [Zero α] [Add α] [Mul α] (A B : Matrix α) (hA : A.WF) (hB : B.WF)
    (hdim : A.getCols = B.getRows) (R : Matrix α) (hR : R.WF) (hrows : R.getRows = A.getRows)
    (hcols : R.getCols = B.getCols) (start_row end_row : Int) (hs : 0 ≤ start_row)
    (hse : start_row ≤ end_row) (he : end_row ≤ A.getRows) :
    ∃ st1 S, workerStep B.getCols A.getCols start_row end_row ⟨A, B, R⟩ = .ok st1 ∧
      multiplySequential A B = .ok S ∧
      (∀ i, start_row ≤ i → i < end_row →
        ∃ row, vecAt S.data i = .ok row ∧ vecAt st1.result.data i = .ok row) ∧
      (∀ i, ¬ (start_row ≤ i ∧ i < end_row) → vecAt st1.result.data i = vecAt R.data i) ∧
      st1.result.getRows = R.getRows ∧ st1.result.getCols = R.getCols ∧
      st1.A = A ∧ st1.B = B := by
  obtain ⟨R1, hw, hW1, hr1, hc1, hget1, hframe⟩ :=
    worker_spec A B hA hB hdim R hR hrows hcols start_row end_row hs hse he
  obtain ⟨S, hseq, hWS, hrS, hcS, hgetS⟩ := multiplySequential_spec A B hA hB hdim
  have hRr : R.rows = A.rows := hrows
  have hRc : R.cols = B.cols := hcols
  have heA : end_row ≤ A.rows := he
  refine ⟨⟨A, B, R1⟩, S, ?_, hseq, ?_, hframe, hr1, hc1, rfl, rfl⟩
  · unfold workerStep
    simp only [Matrix.getCols]
    rw [hw]
  · intro i hi1 hi2
    have hi0 : 0 ≤ i := by omega
    have hiA : i < A.rows := by omega
    obtain ⟨row, hrow, _⟩ := hWS.row i hi0 (by omega)
    have hS : vecAt S.data i = .ok row := (vecAt_eq_ok _ _ _).2 ⟨hi0, hrow⟩
    refine ⟨row, hS, ?_⟩
    rw [← hS]
    apply Matrix.row_eq_of_get R1 S hW1 hWS (by omega) i hi0 (by omega) (by omega)
    intro j hj0 hj
    have hjB : j < B.cols := by omega
    rw [hget1, if_pos ⟨⟨hi1, hi2⟩, hj0, hjB⟩, hgetS i j hi0 hiA hj0 hjB]

/-- The worker on rows `[1, 2)` of a stale 2×4 output of the 2×3 by 3×4 product:
row 1 becomes the product row, row 0 keeps its stale values. -/
theorem worker_frame_witness :
    rectA.WF ∧ rectB.WF ∧ rectA.getCols = rectB.getRows ∧ staleR.WF ∧
    staleR.getRows = rectA.getRows ∧ staleR.getCols = rectB.getCols ∧
    (0 : Int) ≤ 1 ∧ (1 : Int) ≤ 2 ∧ 2 ≤ rectA.getRows ∧
    (∃ st1 S, workerStep rectB.getCols rectA.getCols 1 2 ⟨rectA, rectB, staleR⟩ = .ok st1 ∧
      multiplySequential rectA rectB = .ok S ∧
      (∀ i, 1 ≤ i → i < 2 →
        ∃ row, vecAt S.data i = .ok row ∧ vecAt st1.result.data i = .ok row) ∧
      (∀ i, ¬ (1 ≤ i ∧ i < 2) → vecAt st1.result.data i = vecAt staleR.data i) ∧
      st1.result.getRows = staleR.getRows ∧ st1.result.getCols = staleR.getCols ∧
      st1.A = rectA ∧ st1.B = rectB) ∧
    worker rectA rectB 4 3 1 2 staleR
      = .ok { data := [[9, 9, 9, 9], [173, 188, 203, 218]], rows := 2, cols := 4 } :=
  ⟨by decide, by decide, rfl, by decide, rfl, rfl, by decide, by decide, by decide,
    worker_frame rectA rectB (by decide) (by decide) rfl staleR (by decide) rfl rfl 1 2
      (by decide) (by decide) (by decide),
    rfl⟩

/-- C12: for well-formed `A` (m×p) and `B` (p×n) with `A.getCols() == B.getRows()`
and `T ≥ 1`: every access `A[i][k]`, `B[k][j]` and `result[i][j]` at the indices the
loops run through (`i < m`, `j < n`, `k < p`) succeeds; the divisor of `m / T` is not
zero; every worker range satisfies `0 ≤ start ≤ end ≤ m`; every worker, run on any
m×n output state, returns without error; and both multipliers return a matrix.
In the embedding an access outside the bounds or a zero divisor ends the run with
`outOfRange` or `divByZero`, so neither error branch is taken. -/
theorem accesses_in_range [Zero α] [Add α] [Mul α] (A B : Matrix α) (hA : A.WF) (hB : B.WF)
    (hdim : A.getCols = B.getRows) (T : Int) (hT : 1 ≤ T) :
    (∀ i j k, 0 ≤ i → i < A.getRows → 0 ≤ j → j < B.getCols → 0 ≤ k → k < A.getCols →
      (∃ a, A.get i k = .ok a) ∧ (∃ b, B.get k j = .ok b) ∧
      ∀ (R0 : Matrix α) (x : α), R0.WF → R0.getRows = A.getRows → R0.getCols = B.getCols →
        ∃ R1, R0.set i j x = .ok R1) ∧
    T ≠ 0 ∧ (∃ q, intDiv A.getRows T = .ok q) ∧
    (∃ S, multiplySequential A B = .ok S) ∧
    ∃ ranges R, threadRanges A.getRows T = .ok ranges ∧
      multiplyParallelSimple A B T = .ok R ∧
      ∀ r ∈ ranges, (0 ≤ r.1 ∧ r.1 ≤ r.2 ∧ r.2 ≤ A.getRows) ∧
        ∀ R0 : Matrix α, R0.WF → R0.getRows = A.getRows → R0.getCols = B.getCols →
          ∃ R1, worker A B B.getCols A.getCols r.1 r.2 R0 = .ok R1 := by
  have hm : 0 ≤ A.getRows := hA.1
  obtain ⟨ranges, hr, _, hch, _⟩ := threadRanges_ok A.getRows T hm hT
  obtain ⟨R, hseq, hpar, _⟩ := multiplyParallelSimple_spec A B hA hB hdim T hT ranges hr
  refine ⟨?_, by omega, ?_, ⟨R, hseq⟩, ranges, R, hr, hpar, ?_⟩
  · intro i j k hi0 hi hj0 hj hk0 hk
    have hkB : k < B.rows := by
      have h1 : A.cols = B.rows := hdim
      have h2 : k < A.cols := hk
      omega
    refine ⟨Matrix.get_ok_of_WF hA i k hi0 hi hk0 hk,
      Matrix.get_ok_of_WF hB k j hk0 hkB hj0 hj, ?_⟩
    intro R0 x hR0 hr0 hc0
    have h1 : R0.rows = A.rows := hr0
    have h2 : R0.cols = B.cols := hc0
    have h3 : i < A.rows := hi
    have h4 : j < B.cols := hj
    obtain ⟨R1, hset, _⟩ := Matrix.set_spec R0 i j x hR0 hi0 (by omega) hj0 (by omega)
    exact ⟨R1, hset⟩
  · unfold intDiv
    rw [if_neg (by omega)]
    exact ⟨_, rfl⟩
  · intro r hrmem
    have hb := Chained.bounds ranges 0 A.getRows hch r hrmem
    refine ⟨hb, ?_⟩
    intro R0 hR0 hr0 hc0
    obtain ⟨R1, hw, _⟩ :=
      worker_spec A B hA hB hdim R0 hR0 hr0 hc0 r.1 r.2 hb.1 hb.2.1 hb.2.2
    exact ⟨R1, hw⟩

/-- The 2×3 by 3×4 product on three workers: the operands meet the hypotheses, the
ranges are `(0,0)`, `(0,0)`, `(0,2)`, and no call ends in an error. -/
theorem accesses_in_range_witness :
    rectA.WF ∧ rectB.WF ∧ rectA.getCols = rectB.getRows ∧ (1 : Int) ≤ 3 ∧
    (∃ S, multiplySequential rectA rectB = .ok S) ∧
    threadRanges rectA.getRows 3 = .ok [(0, 0), (0, 0), (0, 2)] ∧
    intDiv rectA.getRows 3 = .ok 0 :=
  ⟨by decide, by decide, rfl, by decide,
    (accesses_in_range rectA rectB (by decide) (by decide) rfl 3 (by decide)).2.2.2.1,
    rfl, rfl⟩

/-- C13: for well-formed operands with `A.getCols() == B.getRows()` and `T ≥ 1`,
running the `T` workers to completion on the zero-filled output in the order given
by any permutation of `0..T-1` returns the matrix `multiplyParallelSimple` returns;
the spawn order is the function itself. -/
theorem multiplyParallelSimple_order_independent [Zero α] [Add α] [Mul α] (A B : Matrix α)
    (hA : A.WF) (hB : B.WF) (hdim : A.getCols = B.getRows) (T : Int) (hT : 1 ≤ T)
    (order : List Nat) (hperm : order.Perm (List.range T.toNat)) :
    ∃ R, multiplyParallelSimple A B T = .ok R ∧
      multiplyParallelSimpleOrder A B T order = .ok R ∧
      multiplyParallelSimpleOrder A B T (List.range T.toNat) = .ok R := by
  have hm : 0 ≤ A.getRows := hA.1
  obtain ⟨ranges, hr, hlen, hch, _⟩ := threadRanges_ok A.getRows T hm hT
  obtain ⟨R, _, hpar, _⟩ := multiplyParallelSimple_spec A B hA hB hdim T hT ranges hr
  obtain ⟨R0, hnew, hW0, hr0, hc0, _⟩ := @Matrix.new_spec α _ A.rows B.cols hA.1 hB.2.1
  refine ⟨R, hpar, ?_, ?_⟩
  · rw [multiplyParallelSimpleOrder_eq A B T order hdim R0 hnew ranges hr, ← hpar,
      multiplyParallelSimple_eq_runThreads A B T hdim R0 hnew ranges hr]
    have hp : (order.filterMap (fun t => ranges[t]?)).Perm ranges := by
      have h1 := List.Perm.filterMap (fun t => ranges[t]?) hperm
      rw [← hlen, filterMap_getElem?_range ranges] at h1
      exact h1
    exact runThreads_perm A B hA hB hdim _ ranges hp
      (fun r hrmem => Chained.bounds ranges 0 A.getRows hch r hrmem) R0 hW0 hr0 hc0
  · rw [multiplyParallelSimpleOrder_spawn A B T hm hT, hpar]

/-- The 7×7 operands on three workers completing in the order 2, 0, 1; and the
2×3 by 3×4 product on two workers completing in the order 1, 0. -/
theorem multiplyParallelSimple_order_independent_witness :
    sevenA.WF ∧ sevenB.WF ∧ sevenA.getCols = sevenB.getRows ∧ (1 : Int) ≤ 3 ∧
    [2, 0, 1].Perm (List.range (3 : Int).toNat) ∧
    (∃ R, multiplyParallelSimple sevenA sevenB 3 = .ok R ∧
      multiplyParallelSimpleOrder sevenA sevenB 3 [2, 0, 1] = .ok R ∧
      multiplyParallelSimpleOrder sevenA sevenB 3 (List.range (3 : Int).toNat) = .ok R) ∧
    multiplyParallelSimpleOrder rectA rectB 2 [1, 0]
      = .ok { data := [[74, 80, 86, 92], [173, 188, 203, 218]], rows := 2, cols := 4 } :=
  ⟨by decide, by decide, rfl, by decide, by decide,
    multiplyParallelSimple_order_independent sevenA sevenB (by decide) (by decide) rfl 3
      (by decide) [2, 0, 1] (by decide),
    rfl⟩

/-! ## The benchmark driver -/

theorem threadLoop_spec {τ : Type} (env : Env τ) (idx : Nat) (size : Int) (seqT : τ) :
    ∀ (tcs : List Int) (k : Nat) (sp : List τ) (out : List (Event τ)),
      visited (threadLoop env idx size seqT tcs k sp out).1 = visited out ∧
      caughtErrors (threadLoop env idx size seqT tcs k sp out).1 = caughtErrors out ∧
      (threadLoop env idx size seqT tcs k sp out).2
        = (threadLoop env idx size seqT tcs k sp []).2 ∧
      ∀ v, (threadLoop env idx size seqT tcs k sp out).2 = .done v →
        v.length = sp.length + tcs.length
  | [], k, sp, out => by
    refine ⟨rfl, rfl, rfl, ?_⟩
    intro v hv
    simp only [threadLoop, Outcome.done.injEq] at hv
    rw [← hv]
    rfl
  | threads :: rest, k, sp, out => by
    cases hp : env.parCall idx size k threads with
    | threw e =>
      simp only [threadLoop, hp]
      refine ⟨trivial, trivial, trivial, ?_⟩
      intro v hv
      cases hv
    | spawnFailed t e =>
      simp only [threadLoop, hp]
      refine ⟨trivial, trivial, trivial, ?_⟩
      intro v hv
      unfold spawnFailure at hv
      split at hv <;> cases hv
    | returned parT =>
      simp only [threadLoop, hp]
      obtain ⟨h1, h2, h3, h4⟩ := threadLoop_spec env idx size seqT rest (k + 1)
        (sp ++ [env.divide seqT parT]) (out ++ [Event.line threads parT (env.divide seqT parT)])
      obtain ⟨_, _, h3b, _⟩ := threadLoop_spec env idx size seqT rest (k + 1)
        (sp ++ [env.divide seqT parT]) ([] ++ [Event.line threads parT (env.divide seqT parT)])
      refine ⟨?_, ?_, ?_, ?_⟩
      · rw [h1]
        simp [visited, List.filterMap_append]
      · rw [h2]
        simp [caughtErrors, List.filterMap_append]
      · rw [h3, h3b]
      · intro v hv
        have := h4 v hv
        simp only [List.length_append, List.length_cons, List.length_nil] at this ⊢
        omega

theorem tryBlock_spec {τ : Type} (env : Env τ) (thread_counts : List Int) (idx : Nat)
    (size : Int) (out : List (Event τ)) :
    visited (tryBlock env thread_counts idx size out).1 = visited out ∧
    caughtErrors (tryBlock env thread_counts idx size out).1 = caughtErrors out ∧
    (tryBlock env thread_counts idx size out).2 = analysisOf env thread_counts idx size ∧
    ∀ v, analysisOf env thread_counts idx size = .done v → v.length = thread_counts.length := by
  unfold analysisOf tryBlock
  cases hs : env.seqTime idx size with
  | error e =>
    refine ⟨rfl, rfl, rfl, ?_⟩
    intro v hv
    cases hv
  | ok seqT =>
    obtain ⟨h1, h2, h3, _⟩ := threadLoop_spec env idx size seqT thread_counts 0 [] out
    obtain ⟨_, _, _, h4⟩ := threadLoop_spec env idx size seqT thread_counts 0 [] []
    refine ⟨h1, h2, h3, ?_⟩
    intro v hv
    have := h4 v hv
    simpa using this

theorem threadLoop_out {τ : Type} (env : Env τ) (idx : Nat) (size : Int) (seqT : τ) :
    ∀ (tcs : List Int) (k : Nat) (sp : List τ) (out : List (Event τ)),
      (threadLoop env idx size seqT tcs k sp out).1
        = out ++ (threadLoop env idx size seqT tcs k sp []).1
  | [], k, sp, out => by simp [threadLoop]
  | threads :: rest, k, sp, out => by
    cases hp : env.parCall idx size k threads with
    | threw e => simp [threadLoop, hp]
    | spawnFailed t e => simp [threadLoop, hp]
    | returned parT =>
      simp only [threadLoop, hp]
      rw [threadLoop_out env idx size seqT rest (k + 1) _
          (out ++ [Event.line threads parT (env.divide seqT parT)]),
        threadLoop_out env idx size seqT rest (k + 1) _
          ([] ++ [Event.line threads parT (env.divide seqT parT)])]
      simp only [List.nil_append, List.append_assoc]

theorem tryBlock_out {τ : Type} (env : Env τ) (thread_counts : List Int) (idx : Nat)
    (size : Int) (out : List (Event τ)) :
    (tryBlock env thread_counts idx size out).1
      = out ++ (tryBlock env thread_counts idx size []).1 := by
  unfold tryBlock
  cases hs : env.seqTime idx size with
  | error e => simp
  | ok seqT => exact threadLoop_out env idx size seqT thread_counts 0 [] out

theorem sizeLoop_spec {τ : Type} (env : Env τ) (thread_counts : List Int) :
    ∀ (sizes : List Int) (idx : Nat) (st : Analysis τ),
      (∀ x ∈ sizes.enumFrom idx, analysisOf env thread_counts x.1 x.2 ≠ .terminated) →
      visited (sizeLoop env thread_counts sizes idx st).out = visited st.out ++ sizes ∧
      (sizeLoop env thread_counts sizes idx st).all_speedups
        = st.all_speedups ++ (sizes.enumFrom idx).filterMap
            (fun x => doneOf (analysisOf env thread_counts x.1 x.2)) ∧
      caughtErrors (sizeLoop env thread_counts sizes idx st).out
        = caughtErrors st.out ++ (sizes.enumFrom idx).filterMap
            (fun x => raisedOf (analysisOf env thread_counts x.1 x.2)) ∧
      (sizeLoop env thread_counts sizes idx st).out
        = st.out ++ (sizes.enumFrom idx).flatMap
            (fun x => iterationOut env thread_counts x.1 x.2) ∧
      (sizeLoop env thread_counts sizes idx st).terminated = st.terminated
  | [], idx, st, _ => by simp [sizeLoop]
  | size :: rest, idx, st, hnt => by
    obtain ⟨h1, h2, h3, _⟩ :=
      tryBlock_spec env thread_counts idx size (st.out ++ [Event.analyzing size])
    have h0 := tryBlock_out env thread_counts idx size (st.out ++ [Event.analyzing size])
    have hv : visited (st.out ++ [Event.analyzing size]) = visited st.out ++ [size] := by
      simp [visited, List.filterMap_append]
    have hc : caughtErrors (st.out ++ [Event.analyzing size]) = caughtErrors st.out := by
      simp [caughtErrors, List.filterMap_append]
    have hrest : ∀ x ∈ rest.enumFrom (idx + 1),
        analysisOf env thread_counts x.1 x.2 ≠ .terminated := by
      intro x hx
      apply hnt x
      rw [List.enumFrom_cons]
      exact List.mem_cons_of_mem _ hx
    have hhead : analysisOf env thread_counts idx size ≠ .terminated := by
      apply hnt (idx, size)
      rw [List.enumFrom_cons]
      exact List.mem_cons_self _ _
    unfold sizeLoop
    cases hb : tryBlock env thread_counts idx size (st.out ++ [Event.analyzing size]) with
    | mk out1 res =>
      rw [hb] at h0 h1 h2 h3
      simp only at h0 h1 h2 h3
      cases res with
      | done speedups =>
        obtain ⟨g1, g2, g3, g4, g5⟩ := sizeLoop_spec env thread_counts rest (idx + 1)
          { st with all_speedups := st.all_speedups ++ [speedups], out := out1 } hrest
        simp only at g1 g2 g3 g4 g5 ⊢
        refine ⟨?_, ?_, ?_, ?_, g5⟩
        · rw [g1, h1, hv, List.append_assoc]
          rfl
        · rw [g2, List.enumFrom_cons, List.filterMap_cons, ← h3, List.append_assoc]
          rfl
        · rw [g3, h2, hc, List.enumFrom_cons, List.filterMap_cons, ← h3]
          rfl
        · rw [g4, List.enumFrom_cons, List.flatMap_cons]
          simp only [iterationOut, ← h3, raisedOf, h0, List.append_assoc, List.append_nil]
      | raised e =>
        obtain ⟨g1, g2, g3, g4, g5⟩ := sizeLoop_spec env thread_counts rest (idx + 1)
          { st with out := out1 ++ [Event.caught e] } hrest
        have hv1 : visited (out1 ++ [Event.caught e]) = visited out1 := by
          simp [visited, List.filterMap_append]
        have hc1 : caughtErrors (out1 ++ [Event.caught e]) = caughtErrors out1 ++ [e] := by
          simp [caughtErrors, List.filterMap_append]
        simp only at g1 g2 g3 g4 g5 ⊢
        refine ⟨?_, ?_, ?_, ?_, g5⟩
        · rw [g1, hv1, h1, hv, List.append_assoc]
          rfl
        · rw [g2, List.enumFrom_cons, List.filterMap_cons, ← h3]
          rfl
        · rw [g3, hc1, h2, hc, List.enumFrom_cons, List.filterMap_cons, ← h3,
            List.append_assoc]
          rfl
        · rw [g4, List.enumFrom_cons, List.flatMap_cons]
          simp only [iterationOut, ← h3, raisedOf, h0, List.append_assoc]
      | terminated => exact absurd h3.symm hhead

theorem outcomes_length {β γ : Type} (f : β → Outcome γ) : ∀ (l : List β),
    (∀ x ∈ l, f x ≠ .terminated) →
    (l.filterMap (fun x => doneOf (f x))).length
      + (l.filterMap (fun x => raisedOf (f x))).length = l.length
  | [], _ => rfl
  | a :: l, hnt => by
    have ih := outcomes_length f l (fun x hx => hnt x (List.mem_cons_of_mem _ hx))
    cases h : f a with
    | done v =>
      have e1 : (fun x => doneOf (f x)) a = some v := by
        show doneOf (f a) = some v
        rw [h]
        rfl
      have e2 : (fun x => raisedOf (f x)) a = none := by
        show raisedOf (f a) = none
        rw [h]
        rfl
      rw [@List.filterMap_cons_some _ _ (fun x => doneOf (f x)) a l v e1,
        @List.filterMap_cons_none _ _ (fun x => raisedOf (f x)) a l e2, List.length_cons,
        List.length_cons]
      omega
    | raised e =>
      have e1 : (fun x => doneOf (f x)) a = none := by
        show doneOf (f a) = none
        rw [h]
        rfl
      have e2 : (fun x => raisedOf (f x)) a = some e := by
        show raisedOf (f a) = some e
        rw [h]
        rfl
      rw [@List.filterMap_cons_none _ _ (fun x => doneOf (f x)) a l e1,
        @List.filterMap_cons_some _ _ (fun x => raisedOf (f x)) a l e e2, List.length_cons,
        List.length_cons]
      omega
    | terminated => exact absurd h (hnt a (List.mem_cons_self _ _))

theorem saveResultsToCSV_ok {τ : Type} (sizes : List Int) (speedups : List (List τ))
    (h : sizes.length ≤ speedups.length) :
    saveResultsToCSV sizes speedups = .ok (sizes.zip speedups) := by
  have key := forLoop_inv
    (fun (i : Int) (rows : List (Int × List τ)) => rows = (sizes.zip speedups).take i.toNat)
    (fun i rows =>
      match vecAt sizes i with
      | .ok size =>
        match vecAt speedups i with
        | .ok row => .ok (rows ++ [(size, row)])
        | .error e => .error e
      | .error e => .error e)
    (sizes.length : Int) ((sizes.length : Int) - 0).toNat 0 [] rfl (by omega) (by simp) (by
      intro i rows hi0 hi hrows
      have h1 : i.toNat < sizes.length := by omega
      have h2 : i.toNat < speedups.length := by omega
      have e1 : vecAt sizes i = .ok sizes[i.toNat] :=
        (vecAt_eq_ok _ _ _).2 ⟨hi0, List.getElem?_eq_getElem h1⟩
      have e2 : vecAt speedups i = .ok speedups[i.toNat] :=
        (vecAt_eq_ok _ _ _).2 ⟨hi0, List.getElem?_eq_getElem h2⟩
      refine ⟨rows ++ [(sizes[i.toNat], speedups[i.toNat])], ?_, ?_⟩
      · simp only [e1, e2]
      · have h3 : (i + 1).toNat = i.toNat + 1 := by omega
        have h4 : i.toNat < (sizes.zip speedups).length := by
          rw [List.length_zip]
          omega
        show rows ++ [(sizes[i.toNat], speedups[i.toNat])] = _
        rw [h3, List.take_succ, List.getElem?_eq_getElem h4, List.getElem_zip, ← hrows]
        rfl)
  obtain ⟨rows, hrun, hrows⟩ := key
  unfold saveResultsToCSV
  rw [hrun, hrows, List.take_of_length_le]
  rw [List.length_zip]
  omega

theorem saveResultsToCSV_short {τ : Type} (sizes : List Int) (speedups : List (List τ))
    (h : speedups.length < sizes.length) :
    saveResultsToCSV sizes speedups = .error .outOfRange := by
  have key := forLoop_inv
    (fun (_ : Int) (_ : List (Int × List τ)) => True)
    (fun i rows =>
      match vecAt sizes i with
      | .ok size =>
        match vecAt speedups i with
        | .ok row => .ok (rows ++ [(size, row)])
        | .error e => .error e
      | .error e => .error e)
    (speedups.length : Int) ((speedups.length : Int) - 0).toNat 0 [] rfl (by omega) trivial (by
      intro i rows hi0 hi _
      have h1 : i.toNat < sizes.length := by omega
      have h2 : i.toNat < speedups.length := by omega
      have e1 : vecAt sizes i = .ok sizes[i.toNat] :=
        (vecAt_eq_ok _ _ _).2 ⟨hi0, List.getElem?_eq_getElem h1⟩
      have e2 : vecAt speedups i = .ok speedups[i.toNat] :=
        (vecAt_eq_ok _ _ _).2 ⟨hi0, List.getElem?_eq_getElem h2⟩
      refine ⟨rows ++ [(sizes[i.toNat], speedups[i.toNat])], ?_, trivial⟩
      simp only [e1, e2])
  obtain ⟨rows, hrun, _⟩ := key
  unfold saveResultsToCSV
  rw [forLoop_split_ok _ (speedups.length : Int) (sizes.length : Int) (by omega)
    ((speedups.length : Int) - 0).toNat 0 [] rows rfl (by omega) hrun,
    forLoop_step _ _ _ _ (by omega)]
  have e1 : vecAt sizes (speedups.length : Int) = .ok sizes[speedups.length] :=
    (vecAt_eq_ok _ _ _).2 ⟨by omega, by simp [h]⟩
  have e2 : vecAt speedups (speedups.length : Int) = .error .outOfRange := by
    unfold vecAt
    rw [if_neg (by omega)]
    simp
  simp only [e1, e2]

theorem result_table_of_no_error {τ : Type} (env : Env τ) (sizes thread_counts : List Int)
    (h : ∀ x ∈ sizes.enum, ∃ v, analysisOf env thread_counts x.1 x.2 = .done v) :
    (runComprehensiveAnalysisWith env sizes thread_counts).1.all_speedups.length
      = sizes.length ∧
    (runComprehensiveAnalysisWith env sizes thread_counts).2
      = some (.ok (sizes.zip
          (runComprehensiveAnalysisWith env sizes thread_counts).1.all_speedups)) := by
  have hnt : ∀ x ∈ sizes.enumFrom 0, analysisOf env thread_counts x.1 x.2 ≠ .terminated := by
    intro x hx
    obtain ⟨v, hv⟩ := h x hx
    rw [hv]
    exact fun hc => Outcome.noConfusion hc
  obtain ⟨_, h2, _, _, h5⟩ := sizeLoop_spec env thread_counts sizes 0
    { all_speedups := [], out := [], terminated := false } hnt
  have hlen := outcomes_length (fun x : Nat × Int => analysisOf env thread_counts x.1 x.2)
    (sizes.enumFrom 0) hnt
  have hnone : ((sizes.enumFrom 0).filterMap
      (fun x => raisedOf (analysisOf env thread_counts x.1 x.2))) = [] := by
    rw [List.filterMap_eq_nil_iff]
    intro x hx
    obtain ⟨v, hv⟩ := h x hx
    rw [hv]
    rfl
  have hen : (sizes.enumFrom 0).length = sizes.length := by simp
  rw [hnone, hen] at hlen
  have hl : (sizeLoop env thread_counts sizes 0
      { all_speedups := [], out := [], terminated := false }).all_speedups.length
      = sizes.length := by
    rw [h2]
    simp only [List.nil_append]
    simpa using hlen
  refine ⟨hl, ?_⟩
  show (if (sizeLoop env thread_counts sizes 0
      { all_speedups := [], out := [], terminated := false }).terminated then none
    else some (saveResultsToCSV sizes _)) = _
  rw [h5]
  simp only [Bool.false_eq_true, if_false]
  rw [saveResultsToCSV_ok sizes _ (le_of_eq hl.symm)]
  rfl

theorem result_table_of_error {τ : Type} (env : Env τ) (sizes thread_counts : List Int)
    (hnt : ∀ x ∈ sizes.enum, analysisOf env thread_counts x.1 x.2 ≠ .terminated)
    (x : Nat × Int) (e : Err) (hx : x ∈ sizes.enum)
    (h : analysisOf env thread_counts x.1 x.2 = .raised e) :
    (runComprehensiveAnalysisWith env sizes thread_counts).1.all_speedups.length
      < sizes.length ∧
    (runComprehensiveAnalysisWith env sizes thread_counts).2
      = some (.error .outOfRange) := by
  obtain ⟨_, h2, _, _, h5⟩ := sizeLoop_spec env thread_counts sizes 0
    { all_speedups := [], out := [], terminated := false } hnt
  have hlen := outcomes_length (fun x : Nat × Int => analysisOf env thread_counts x.1 x.2)
    (sizes.enumFrom 0) hnt
  have hpos : 0 < ((sizes.enumFrom 0).filterMap
      (fun x => raisedOf (analysisOf env thread_counts x.1 x.2))).length := by
    apply List.length_pos_of_mem (a := e)
    rw [List.mem_filterMap]
    exact ⟨x, hx, by rw [h]; rfl⟩
  have hen : (sizes.enumFrom 0).length = sizes.length := by simp
  beta_reduce at hlen
  have hl : (sizeLoop env thread_counts sizes 0
      { all_speedups := [], out := [], terminated := false }).all_speedups.length
      < sizes.length := by
    rw [h2]
    simp only [List.nil_append]
    omega
  refine ⟨hl, ?_⟩
  show (if (sizeLoop env thread_counts sizes 0
      { all_speedups := [], out := [], terminated := false }).terminated then none
    else some (saveResultsToCSV sizes _)) = _
  rw [h5]
  simp only [Bool.false_eq_true, if_false]
  rw [saveResultsToCSV_short sizes _ hl]

/-! ## Driver claims -/

/-- C15, evaluated on a run in which the analysis of the first size raises: the
table handed to `saveResultsToCSV` has four entries for five sizes, its entry 0
holds the speedups measured for size 200 and not for `sizes[0] = 100`, the access
`speedups[4]` is out of range, and `saveResultsToCSV` is reached and runs into it.
In the run with the same times and no error the table has one row per size, each
with the speedups of that size. -/
theorem result_table_after_error :
    analysisOf faultyEnv [1, 2, 4, 8] 0 100 = .raised .badAlloc ∧
    analysisOf faultyEnv [1, 2, 4, 8] 1 200 = .done [200, 400, 800, 1600] ∧
    (runComprehensiveAnalysis faultyEnv).1.all_speedups
      = [[200, 400, 800, 1600], [300, 600, 1200, 2400], [500, 1000, 2000, 4000],
          [800, 1600, 3200, 6400]] ∧
    (runComprehensiveAnalysis faultyEnv).1.all_speedups.length = 4 ∧
    visited (runComprehensiveAnalysis faultyEnv).1.out = [100, 200, 300, 500, 800] ∧
    (runComprehensiveAnalysis faultyEnv).1.terminated = false ∧
    vecAt (runComprehensiveAnalysis faultyEnv).1.all_speedups 4 = .error .outOfRange ∧
    (runComprehensiveAnalysis faultyEnv).2 = some (.error .outOfRange) ∧
    (runComprehensiveAnalysis healthyEnv).2
      = some (.ok [(100, [100, 200, 400, 800]), (200, [200, 400, 800, 1600]),
          (300, [300, 600, 1200, 2400]), (500, [500, 1000, 2000, 4000]),
          (800, [800, 1600, 3200, 6400])]) :=
  ⟨rfl, rfl, rfl, rfl, rfl, rfl, rfl, rfl, rfl⟩

end MatMul
